import Mathlib

/-!
The kernels of prob2_vecintrin/functions.cpp

A shallow embedding of the six kernels of `functions.cpp` (`absSerial`,
`absVector`, `clampedExpSerial`, `clampedExpVector`, `arraySumSerial`,
`arraySumVector`) and of the lane-group primitives of `CMU418intrin.h`
they are written with.

Modelling decisions.

* `float` is an arbitrary type `F` with the operations the kernels use,
  bundled in `FloatOps F`.  Statements that compare two kernels hold for
  every such bundle; statements about the mathematical value (a power, an
  absolute value, a sum) are made for `exactOps`, the exact arithmetic of `ℚ`.
* `int` is `Int`.  The kernels only apply `& 1`, `>> 1` and `> 0` to
  exponents, none of which can overflow, so no wrap-around is involved.
* An array argument is a `List` (the buffer the pointer designates); `N` is
  the separate length argument.  An access outside the buffer is the error
  `Err.outOfBounds`.
* A loop whose termination depends on data carries a fuel argument and
  yields `Err.outOfFuel` when the fuel is spent before the loop condition
  turns false.
* A local variable declared without an initialiser holds an arbitrary value:
  the vector kernels take the initial contents of their registers as an
  argument.
* `VECTOR_WIDTH` is the parameter `W`, and the length argument `N` is a
  natural number.
-/

namespace Vecintrin

/-- The two ways a run can fail to produce a result. -/
inductive Err where
  | outOfBounds
  | outOfFuel
  deriving DecidableEq, Repr

/-- The `float` operations used by the kernels. -/
structure FloatOps (F : Type) where
  /-- The literal `0.f`. -/
  zero : F
  /-- The literal `1.f`. -/
  one : F
  /-- The literal `4.18f`. -/
  limit : F
  /-- Unary minus. -/
  neg : F → F
  /-- Addition. -/
  add : F → F → F
  /-- Subtraction. -/
  sub : F → F → F
  /-- Multiplication. -/
  mul : F → F → F
  /-- The comparison `a < b`; `a > b` is `lt b a`. -/
  lt : F → F → Bool

/-- Exact rational arithmetic, with `4.18` standing for `4.18f`. -/
def exactOps : FloatOps ℚ where
  zero := 0
  one := 1
  limit := 209 / 50
  neg := fun a => -a
  add := fun a b => a + b
  sub := fun a b => a - b
  mul := fun a b => a * b
  lt := fun a b => decide (a < b)

/-- The array read `a[i]`. -/
def readAt {α : Type} (a : List α) (i : Nat) : Except Err α :=
  match a[i]? with
  | some v => .ok v
  | none => .error .outOfBounds

/-- The array write `a[i] = v`. -/
def writeAt {α : Type} (a : List α) (i : Nat) (v : α) : Except Err (List α) :=
  if i < a.length then .ok (a.set i v) else .error .outOfBounds

/-! ## Lane groups and masks (`CMU418intrin.h`) -/

/-- Modelled from the spec: the type `__cmu418_vec<T>` of the absent header
`CMU418intrin.h`, "a fixed-width (W) group of scalar values (float or integer)
processed together". -/
abbrev cmu418_vec (W : Nat) (α : Type) := Fin W → α

/-- Modelled from the spec: the type `__cmu418_mask` of the absent header
`CMU418intrin.h`, "a fixed-width group of boolean predicates, one per lane". -/
abbrev cmu418_mask (W : Nat) := Fin W → Bool

/-- Modelled from the spec: `_cmu418_init_ones(first)` of the absent header
`CMU418intrin.h`, the mask whose first `first` lanes are set ("mask width");
the source calls it without argument for "All ones" (`first = W`) and with
`0` for "All zeros". -/
def cmu418_init_ones (W : Nat) (first : Nat) : cmu418_mask W :=
  fun l => decide (l.val < first)

/-- Modelled from the spec: `_cmu418_mask_not` of the absent header
`CMU418intrin.h`, the "logical NOT" of a mask. -/
def cmu418_mask_not {W : Nat} (m : cmu418_mask W) : cmu418_mask W :=
  fun l => !(m l)

/-- Modelled from the spec: `_cmu418_cntbits` of the absent header
`CMU418intrin.h`, the "population count (number of set bits)" of a mask. -/
def cmu418_cntbits {W : Nat} (m : cmu418_mask W) : Nat :=
  (List.finRange W).countP (fun l => m l)

/-- Modelled from the spec: `_cmu418_vset_float(value)` / `_cmu418_vset_int(value)`
of the absent header `CMU418intrin.h`, the lane group holding `value` in every
lane. -/
def cmu418_vset (W : Nat) {α : Type} (value : α) : cmu418_vec W α :=
  fun _ => value

/-- Modelled from the spec: the masked `_cmu418_vset_float(vec, value, mask)` of
the absent header `CMU418intrin.h`; "lanes outside the mask must be unmodified
by masked operations". -/
def cmu418_vset_masked {W : Nat} {α : Type} (dest : cmu418_vec W α) (value : α)
    (mask : cmu418_mask W) : cmu418_vec W α :=
  fun l => if mask l then value else dest l

/-- Modelled from the spec: the lane-wise masked binary operations of the absent
header `CMU418intrin.h` (`_cmu418_vsub_float`, `_cmu418_vmult_float`,
`_cmu418_vbitand_int`, `_cmu418_vshiftright_int`): lane `l` of the destination
becomes `f (a l) (b l)` where the mask is set; "lanes outside the mask must be
unmodified by masked operations". -/
def cmu418_vop {W : Nat} {α : Type} (f : α → α → α) (dest a b : cmu418_vec W α)
    (mask : cmu418_mask W) : cmu418_vec W α :=
  fun l => if mask l then f (a l) (b l) else dest l

/-- Modelled from the spec: the lane-wise masked comparisons of the absent header
`CMU418intrin.h` (`_cmu418_vlt_float`, `_cmu418_vgt_float`, `_cmu418_vgt_int`):
lane `l` of the result mask becomes `p (a l) (b l)` where the mask is set;
"lanes outside the mask must be unmodified by masked operations". -/
def cmu418_vcmp {W : Nat} {α : Type} (p : α → α → Bool) (dest : cmu418_mask W)
    (a b : cmu418_vec W α) (mask : cmu418_mask W) : cmu418_mask W :=
  fun l => if mask l then p (a l) (b l) else dest l

/-- Subtraction `_cmu418_vsub_float(dest, a, b, mask)`. -/
def cmu418_vsub_float {W : Nat} {F : Type} (ops : FloatOps F) (dest a b : cmu418_vec W F)
    (mask : cmu418_mask W) : cmu418_vec W F :=
  cmu418_vop ops.sub dest a b mask

/-- Multiplication `_cmu418_vmult_float(dest, a, b, mask)`. -/
def cmu418_vmult_float {W : Nat} {F : Type} (ops : FloatOps F) (dest a b : cmu418_vec W F)
    (mask : cmu418_mask W) : cmu418_vec W F :=
  cmu418_vop ops.mul dest a b mask

/-- Bitwise and `_cmu418_vbitand_int(dest, a, b, mask)`. -/
def cmu418_vbitand_int {W : Nat} (dest a b : cmu418_vec W Int)
    (mask : cmu418_mask W) : cmu418_vec W Int :=
  cmu418_vop Int.land dest a b mask

/-- Arithmetic right shift `_cmu418_vshiftright_int(dest, a, b, mask)`. -/
def cmu418_vshiftright_int {W : Nat} (dest a b : cmu418_vec W Int)
    (mask : cmu418_mask W) : cmu418_vec W Int :=
  cmu418_vop (fun x s => Int.shiftRight x s.toNat) dest a b mask

/-- Comparison `_cmu418_vlt_float(dest, a, b, mask)`. -/
def cmu418_vlt_float {W : Nat} {F : Type} (ops : FloatOps F) (dest : cmu418_mask W)
    (a b : cmu418_vec W F) (mask : cmu418_mask W) : cmu418_mask W :=
  cmu418_vcmp ops.lt dest a b mask

/-- Comparison `_cmu418_vgt_float(dest, a, b, mask)`. -/
def cmu418_vgt_float {W : Nat} {F : Type} (ops : FloatOps F) (dest : cmu418_mask W)
    (a b : cmu418_vec W F) (mask : cmu418_mask W) : cmu418_mask W :=
  cmu418_vcmp (fun x y => ops.lt y x) dest a b mask

/-- Comparison `_cmu418_vgt_int(dest, a, b, mask)`. -/
def cmu418_vgt_int {W : Nat} (dest : cmu418_mask W)
    (a b : cmu418_vec W Int) (mask : cmu418_mask W) : cmu418_mask W :=
  cmu418_vcmp (fun x y => decide (x > y)) dest a b mask

/-- Modelled from the spec: the masked loads `_cmu418_vload_float` /
`_cmu418_vload_int` of the absent header `CMU418intrin.h`: lane `l` of the
destination becomes `src[off + l]` where the mask is set, other lanes are
unmodified; a set lane whose address lies outside the buffer is an
out-of-bounds read. -/
def cmu418_vload {W : Nat} {α : Type} (dest : cmu418_vec W α) (src : List α) (off : Nat)
    (mask : cmu418_mask W) : Except Err (cmu418_vec W α) :=
  if ∀ l : Fin W, mask l = true → off + l.val < src.length then
    .ok (fun l => if mask l then src.getD (off + l.val) (dest l) else dest l)
  else .error .outOfBounds

/-- Modelled from the spec: the masked store `_cmu418_vstore_float` of the absent
header `CMU418intrin.h`: `dest[off + l]` becomes lane `l` of `src` where the
mask is set, "so inactive lanes are never written"; a set lane whose address
lies outside the buffer is an out-of-bounds write. -/
def cmu418_vstore {W : Nat} {α : Type} (dest : List α) (off : Nat) (src : cmu418_vec W α)
    (mask : cmu418_mask W) : Except Err (List α) :=
  if ∀ l : Fin W, mask l = true → off + l.val < dest.length then
    .ok (List.ofFn (fun j : Fin dest.length =>
      if h : off ≤ j.val ∧ j.val - off < W then
        (if mask ⟨j.val - off, h.2⟩ then src ⟨j.val - off, h.2⟩ else dest[j.val])
      else dest[j.val]))
  else .error .outOfBounds

/-! ## absSerial / absVector -/

/-- The kernel `absSerial(values, output, N)`; the result is the final contents
of `output`. -/
def absSerial {F : Type} (ops : FloatOps F) (values output : List F) (N : Nat) :
    Except Err (List F) :=
  (List.range N).foldlM (fun out i => do
    let x ← readAt values i
    if ops.lt x ops.zero then writeAt out i (ops.neg x) else writeAt out i x) output

/-- The registers `x` and `result` of `absVector`, and the output buffer. -/
structure AbsState (W : Nat) (F : Type) where
  x : cmu418_vec W F
  result : cmu418_vec W F
  output : List F

/-- One iteration of the loop of `absVector`, for the group starting at `i`. -/
def absVectorBody {W : Nat} {F : Type} (ops : FloatOps F) (values : List F) (i : Nat)
    (s : AbsState W F) : Except Err (AbsState W F) := do
  let zero := cmu418_vset W ops.zero
  let maskAll := cmu418_init_ones W W
  let maskIsNegative := cmu418_init_ones W 0
  let x ← cmu418_vload s.x values i maskAll
  let maskIsNegative := cmu418_vlt_float ops maskIsNegative x zero maskAll
  let result := cmu418_vsub_float ops s.result zero x maskIsNegative
  let maskIsNotNegative := cmu418_mask_not maskIsNegative
  let result ← cmu418_vload result values i maskIsNotNegative
  let output ← cmu418_vstore s.output i result maskAll
  pure { x := x, result := result, output := output }

/-- The loop `for (int i = 0; i < N; i += VECTOR_WIDTH)` of `absVector`, from
index `i` on. -/
def absVectorFor {W : Nat} {F : Type} (ops : FloatOps F) (values : List F) (N : Nat) :
    Nat → Nat → AbsState W F → Except Err (AbsState W F)
  | 0, i, s => if i < N then .error .outOfFuel else .ok s
  | fuel + 1, i, s =>
    if i < N then do
      let s' ← absVectorBody ops values i s
      absVectorFor ops values N fuel (i + W) s'
    else .ok s

/-- The kernel `absVector(values, output, N)`; `x0` and `result0` are the
initial contents of the uninitialised registers `x` and `result`, and `fuel`
bounds the number of iterations of the `for` loop. -/
def absVector {W : Nat} {F : Type} (ops : FloatOps F) (fuel : Nat)
    (x0 result0 : cmu418_vec W F) (values output : List F) (N : Nat) :
    Except Err (List F) := do
  let s ← absVectorFor ops values N fuel 0 { x := x0, result := result0, output := output }
  pure s.output

/-! ## clampedExpSerial / clampedExpVector -/

/-- The loop `while (y > 0)` of `clampedExpSerial`; the value is the final
`result`. -/
def clampedExpSerialWhile {F : Type} (ops : FloatOps F) (y : Int) (result xpower : F) : F :=
  if y > 0 then
    clampedExpSerialWhile ops (Int.shiftRight y 1)
      (if Int.land y 1 ≠ 0 then ops.mul result xpower else result) (ops.mul xpower xpower)
  else result
termination_by y.toNat
decreasing_by
  rename_i h
  cases y with
  | ofNat n =>
    have hn : 0 < n := Int.ofNat_pos.mp h
    show (n >>> 1) < n
    rw [Nat.shiftRight_eq_div_pow]
    omega
  | negSucc n => exact absurd h (by simp)

/-- The body of the `for` loop of `clampedExpSerial` up to the clamp: the value
stored in `output[i]` for `x = values[i]`, `y = exponents[i]`. -/
def clampedExpSerialElem {F : Type} (ops : FloatOps F) (x : F) (y : Int) : F :=
  let result := clampedExpSerialWhile ops y ops.one x
  if ops.lt ops.limit result then ops.limit else result

/-- The kernel `clampedExpSerial(values, exponents, output, N)`; the result is
the final contents of `output`. -/
def clampedExpSerial {F : Type} (ops : FloatOps F) (values : List F) (exponents : List Int)
    (output : List F) (N : Nat) : Except Err (List F) :=
  (List.range N).foldlM (fun out i => do
    let x ← readAt values i
    let y ← readAt exponents i
    writeAt out i (clampedExpSerialElem ops x y)) output

/-- The lane-group and mask variables of `clampedExpVector` that are assigned
inside its loops. -/
structure ExpRegs (W : Nat) (F : Type) where
  y : cmu418_vec W Int
  lowest_bit : cmu418_vec W Int
  result : cmu418_vec W F
  xpower : cmu418_vec W F
  maskAll : cmu418_mask W
  maskGreaterThan0 : cmu418_mask W
  maskLowestBitIs1 : cmu418_mask W
  maskGreaterThanUpperLimit : cmu418_mask W

/-- The body of the `while` loop of `clampedExpVector` (lines 122-129). -/
def clampedExpVectorBody {W : Nat} {F : Type} (ops : FloatOps F) (r : ExpRegs W F) :
    ExpRegs W F :=
  let zero := cmu418_vset W (0 : Int)
  let one := cmu418_vset W (1 : Int)
  let lowest_bit := cmu418_vbitand_int r.lowest_bit r.y one r.maskAll
  let maskLowestBitIs1 := cmu418_vgt_int r.maskLowestBitIs1 lowest_bit zero r.maskAll
  let result := cmu418_vmult_float ops r.result r.result r.xpower maskLowestBitIs1
  let xpower := cmu418_vmult_float ops r.xpower r.xpower r.xpower r.maskAll
  let y := cmu418_vshiftright_int r.y r.y one r.maskAll
  let maskGreaterThan0 := cmu418_vgt_int r.maskGreaterThan0 y zero r.maskAll
  { r with y := y, lowest_bit := lowest_bit, result := result, xpower := xpower,
           maskGreaterThan0 := maskGreaterThan0, maskLowestBitIs1 := maskLowestBitIs1 }

/-- The loop `while (_cmu418_cntbits(maskGreaterThan0) > 0)` of
`clampedExpVector`. -/
def clampedExpVectorWhile {W : Nat} {F : Type} (ops : FloatOps F) :
    Nat → ExpRegs W F → Except Err (ExpRegs W F)
  | 0, r => if cmu418_cntbits r.maskGreaterThan0 > 0 then .error .outOfFuel else .ok r
  | fuel + 1, r =>
    if cmu418_cntbits r.maskGreaterThan0 > 0 then
      clampedExpVectorWhile ops fuel (clampedExpVectorBody ops r)
    else .ok r

/-- One iteration of the `for` loop of `clampedExpVector` (lines 110-135), for
the group starting at `i`. -/
def clampedExpVectorGroup {W : Nat} {F : Type} (ops : FloatOps F) (fuel : Nat)
    (values : List F) (exponents : List Int) (N : Nat) (i : Nat)
    (s : ExpRegs W F × List F) : Except Err (ExpRegs W F × List F) := do
  let r := s.1
  let leftOver := N % W
  let zero := cmu418_vset W (0 : Int)
  let upperLimit := cmu418_vset W ops.limit
  let maskAll := if i + W > N then cmu418_init_ones W leftOver else r.maskAll
  let result := cmu418_vset W ops.one
  let xpower ← cmu418_vload r.xpower values i maskAll
  let y ← cmu418_vload r.y exponents i maskAll
  let maskGreaterThan0 := cmu418_vgt_int r.maskGreaterThan0 y zero maskAll
  let r ← clampedExpVectorWhile ops fuel
    { r with y := y, result := result, xpower := xpower, maskAll := maskAll,
             maskGreaterThan0 := maskGreaterThan0 }
  let maskGreaterThanUpperLimit :=
    cmu418_vgt_float ops r.maskGreaterThanUpperLimit r.result upperLimit r.maskAll
  let result := cmu418_vset_masked r.result ops.limit maskGreaterThanUpperLimit
  let output ← cmu418_vstore s.2 i result r.maskAll
  pure ({ r with result := result, maskGreaterThanUpperLimit := maskGreaterThanUpperLimit },
        output)

/-- The loop `for (int i = 0; i < N; i += VECTOR_WIDTH)` of `clampedExpVector`,
from index `i` on. -/
def clampedExpVectorFor {W : Nat} {F : Type} (ops : FloatOps F) (fuel : Nat)
    (values : List F) (exponents : List Int) (N : Nat) :
    Nat → Nat → ExpRegs W F × List F → Except Err (ExpRegs W F × List F)
  | 0, i, s => if i < N then .error .outOfFuel else .ok s
  | k + 1, i, s =>
    if i < N then do
      let s' ← clampedExpVectorGroup ops fuel values exponents N i s
      clampedExpVectorFor ops fuel values exponents N k (i + W) s'
    else .ok s

/-- The kernel `clampedExpVector(values, exponents, output, N)`; `r0` holds the
initial contents of the registers, which the source declares without
initialiser (`maskAll` is assigned before the loop); `fuel` bounds the number
of iterations of the `for` loop and of each run of the `while` loop. -/
def clampedExpVector {W : Nat} {F : Type} (ops : FloatOps F) (fuel : Nat) (r0 : ExpRegs W F)
    (values : List F) (exponents : List Int) (output : List F) (N : Nat) :
    Except Err (List F) := do
  let s ← clampedExpVectorFor ops fuel values exponents N fuel 0
    ({ r0 with maskAll := cmu418_init_ones W W }, output)
  pure s.2

/-- Lines 110-118 of `clampedExpVector`: the registers at the first evaluation of
the `while` condition of the group starting at `i`, when the group is entered
with the registers `r`. -/
def clampedExpVectorEntry {W : Nat} {F : Type} (ops : FloatOps F)
    (values : List F) (exponents : List Int) (N : Nat) (i : Nat)
    (r : ExpRegs W F) : Except Err (ExpRegs W F) := do
  let leftOver := N % W
  let zero := cmu418_vset W (0 : Int)
  let maskAll := if i + W > N then cmu418_init_ones W leftOver else r.maskAll
  let result := cmu418_vset W ops.one
  let xpower ← cmu418_vload r.xpower values i maskAll
  let y ← cmu418_vload r.y exponents i maskAll
  let maskGreaterThan0 := cmu418_vgt_int r.maskGreaterThan0 y zero maskAll
  pure { r with y := y, result := result, xpower := xpower, maskAll := maskAll,
                maskGreaterThan0 := maskGreaterThan0 }

/-- The variant of the loop body that the spec allows as an alternative: as
`clampedExpVectorBody`, but the squaring of `xpower` (line 126) is masked by
the still-iterating mask `maskGreaterThan0` instead of `maskAll`. -/
def clampedExpVectorBodyIterMask {W : Nat} {F : Type} (ops : FloatOps F) (r : ExpRegs W F) :
    ExpRegs W F :=
  let zero := cmu418_vset W (0 : Int)
  let one := cmu418_vset W (1 : Int)
  let lowest_bit := cmu418_vbitand_int r.lowest_bit r.y one r.maskAll
  let maskLowestBitIs1 := cmu418_vgt_int r.maskLowestBitIs1 lowest_bit zero r.maskAll
  let result := cmu418_vmult_float ops r.result r.result r.xpower maskLowestBitIs1
  let xpower := cmu418_vmult_float ops r.xpower r.xpower r.xpower r.maskGreaterThan0
  let y := cmu418_vshiftright_int r.y r.y one r.maskAll
  let maskGreaterThan0 := cmu418_vgt_int r.maskGreaterThan0 y zero r.maskAll
  { r with y := y, lowest_bit := lowest_bit, result := result, xpower := xpower,
           maskGreaterThan0 := maskGreaterThan0, maskLowestBitIs1 := maskLowestBitIs1 }

/-- The `while` loop of `clampedExpVector` run with the variant body
`clampedExpVectorBodyIterMask`. -/
def clampedExpVectorWhileIterMask {W : Nat} {F : Type} (ops : FloatOps F) :
    Nat → ExpRegs W F → Except Err (ExpRegs W F)
  | 0, r => if cmu418_cntbits r.maskGreaterThan0 > 0 then .error .outOfFuel else .ok r
  | fuel + 1, r =>
    if cmu418_cntbits r.maskGreaterThan0 > 0 then
      clampedExpVectorWhileIterMask ops fuel (clampedExpVectorBodyIterMask ops r)
    else .ok r

/-- One iteration of the `for` loop of the variant kernel: as
`clampedExpVectorGroup`, with the `while` loop run by
`clampedExpVectorWhileIterMask`. -/
def clampedExpVectorGroupIterMask {W : Nat} {F : Type} (ops : FloatOps F) (fuel : Nat)
    (values : List F) (exponents : List Int) (N : Nat) (i : Nat)
    (s : ExpRegs W F × List F) : Except Err (ExpRegs W F × List F) := do
  let r := s.1
  let leftOver := N % W
  let zero := cmu418_vset W (0 : Int)
  let upperLimit := cmu418_vset W ops.limit
  let maskAll := if i + W > N then cmu418_init_ones W leftOver else r.maskAll
  let result := cmu418_vset W ops.one
  let xpower ← cmu418_vload r.xpower values i maskAll
  let y ← cmu418_vload r.y exponents i maskAll
  let maskGreaterThan0 := cmu418_vgt_int r.maskGreaterThan0 y zero maskAll
  let r ← clampedExpVectorWhileIterMask ops fuel
    { r with y := y, result := result, xpower := xpower, maskAll := maskAll,
             maskGreaterThan0 := maskGreaterThan0 }
  let maskGreaterThanUpperLimit :=
    cmu418_vgt_float ops r.maskGreaterThanUpperLimit r.result upperLimit r.maskAll
  let result := cmu418_vset_masked r.result ops.limit maskGreaterThanUpperLimit
  let output ← cmu418_vstore s.2 i result r.maskAll
  pure ({ r with result := result, maskGreaterThanUpperLimit := maskGreaterThanUpperLimit },
        output)

/-- The `for` loop of the variant kernel, from index `i` on. -/
def clampedExpVectorForIterMask {W : Nat} {F : Type} (ops : FloatOps F) (fuel : Nat)
    (values : List F) (exponents : List Int) (N : Nat) :
    Nat → Nat → ExpRegs W F × List F → Except Err (ExpRegs W F × List F)
  | 0, i, s => if i < N then .error .outOfFuel else .ok s
  | k + 1, i, s =>
    if i < N then do
      let s' ← clampedExpVectorGroupIterMask ops fuel values exponents N i s
      clampedExpVectorForIterMask ops fuel values exponents N k (i + W) s'
    else .ok s

/-- The variant kernel that the spec allows as an alternative to
`clampedExpVector`: the same code, except that the squaring of `xpower`
(line 126) is masked by the still-iterating mask `maskGreaterThan0` instead of
`maskAll`. -/
def clampedExpVectorIterMask {W : Nat} {F : Type} (ops : FloatOps F) (fuel : Nat)
    (r0 : ExpRegs W F) (values : List F) (exponents : List Int) (output : List F) (N : Nat) :
    Except Err (List F) := do
  let s ← clampedExpVectorForIterMask ops fuel values exponents N fuel 0
    ({ r0 with maskAll := cmu418_init_ones W W }, output)
  pure s.2

/-- One possible content of the uninitialised registers of `clampedExpVector`:
every lane zero, every mask bit clear. -/
def zeroRegs (W : Nat) : ExpRegs W ℚ where
  y := fun _ => 0
  lowest_bit := fun _ => 0
  result := fun _ => 0
  xpower := fun _ => 0
  maskAll := fun _ => false
  maskGreaterThan0 := fun _ => false
  maskLowestBitIs1 := fun _ => false
  maskGreaterThanUpperLimit := fun _ => false

/-- Another possible content of the uninitialised registers of
`clampedExpVector`: as `zeroRegs`, but every bit of `maskGreaterThan0` set. -/
def dirtyRegs (W : Nat) : ExpRegs W ℚ :=
  { zeroRegs W with maskGreaterThan0 := fun _ => true }

/-! ## arraySumSerial / arraySumVector -/

/-- The kernel `arraySumSerial(values, N)`. -/
def arraySumSerial {F : Type} (ops : FloatOps F) (values : List F) (N : Nat) : Except Err F :=
  (List.range N).foldlM (fun sum i => do
    let v ← readAt values i
    pure (ops.add sum v)) ops.zero

/-- The kernel `arraySumVector(values, N)`: the body is `return 0.f;`. -/
def arraySumVector {F : Type} (ops : FloatOps F) (_values : List F) (_N : Nat) : Except Err F :=
  .ok ops.zero

/-! ## Basic facts -/

theorem bind_ok {α β : Type} (a : α) (f : α → Except Err β) :
    (Except.ok a >>= f) = f a := rfl

theorem bind_error {α β : Type} (e : Err) (f : α → Except Err β) :
    ((Except.error e : Except Err α) >>= f) = Except.error e := rfl

theorem pure_eq_ok {α : Type} (a : α) : (pure a : Except Err α) = Except.ok a := rfl

theorem readAt_of_getElem? {α : Type} {a : List α} {i : Nat} {v : α} (h : a[i]? = some v) :
    readAt a i = .ok v := by
  simp [readAt, h]

theorem writeAt_of_lt {α : Type} {a : List α} {i : Nat} (v : α) (h : i < a.length) :
    writeAt a i v = .ok (a.set i v) := by
  simp [writeAt, h]

theorem cntbits_pos_iff {W : Nat} (m : cmu418_mask W) :
    0 < cmu418_cntbits m ↔ ∃ l, m l = true := by
  simp [cmu418_cntbits, List.countP_pos_iff, List.mem_finRange]

theorem cntbits_not_pos_iff {W : Nat} (m : cmu418_mask W) :
    ¬ 0 < cmu418_cntbits m ↔ ∀ l, m l = false := by
  rw [cntbits_pos_iff]
  simp

theorem land_one_nonneg (y : Int) : 0 ≤ Int.land y 1 := by
  cases y with
  | ofNat n => exact Int.ofNat_nonneg _
  | negSucc n => exact Int.ofNat_nonneg _

theorem land_one_of_nonneg {y : Int} (h : 0 ≤ y) : Int.land y 1 = y % 2 := by
  obtain ⟨n, rfl⟩ := Int.eq_ofNat_of_zero_le h
  show ((Nat.land n 1 : Nat) : Int) = (n : Int) % 2
  have : Nat.land n 1 = n % 2 := Nat.and_one_is_mod n
  rw [this]
  norm_cast

theorem shiftRight_one (y : Int) : Int.shiftRight y 1 = y / 2 := by
  have := Int.shiftRight_eq_div_pow y 1
  simpa using this

theorem land_zero_one : Int.land 0 1 = 0 := rfl

theorem clampedExpSerialWhile_pos {F : Type} (ops : FloatOps F) {y : Int} (h : y > 0)
    (result xpower : F) :
    clampedExpSerialWhile ops y result xpower =
      clampedExpSerialWhile ops (Int.shiftRight y 1)
        (if Int.land y 1 ≠ 0 then ops.mul result xpower else result) (ops.mul xpower xpower) := by
  rw [clampedExpSerialWhile, if_pos h]

theorem clampedExpSerialWhile_nonpos {F : Type} (ops : FloatOps F) {y : Int} (h : ¬ y > 0)
    (result xpower : F) :
    clampedExpSerialWhile ops y result xpower = result := by
  rw [clampedExpSerialWhile, if_neg h]

/-! ## The serial element loops -/

/-- A `for (i = 0; i < N; i++)` loop whose body stores `h i` in `out[i]`
produces the buffer that holds `h j` at every `j < N` and is unchanged
elsewhere. -/
theorem foldlM_range_set {α : Type} (body : List α → Nat → Except Err (List α)) (h : Nat → α)
    (N : Nat)
    (hb : ∀ out i, i < N → i < out.length → body out i = .ok (out.set i (h i)))
    (output : List α) (hN : N ≤ output.length) :
    ∃ out', (List.range N).foldlM body output = .ok out' ∧ out'.length = output.length ∧
      ∀ j, out'[j]? = if j < N then some (h j) else output[j]? := by
  induction N with
  | zero => exact ⟨output, rfl, rfl, fun j => by simp⟩
  | succ n ih =>
    obtain ⟨out1, h1, hlen, hget⟩ :=
      ih (fun out i hi hl => hb out i (Nat.lt_succ_of_lt hi) hl) (Nat.le_of_succ_le hN)
    have hn : n < out1.length := by omega
    refine ⟨out1.set n (h n), ?_, by simp [hlen], ?_⟩
    · rw [List.range_succ, List.foldlM_append, h1]
      show (body out1 n >>= fun x => List.foldlM body x []) = _
      rw [hb out1 n (Nat.lt_succ_self n) hn]
      rfl
    · intro j
      rw [List.getElem?_set]
      by_cases hj : n = j
      · subst hj
        simp [hn]
      · rw [if_neg hj, hget j]
        by_cases hj2 : j < n
        · simp [hj2, Nat.lt_succ_of_lt hj2]
        · have : ¬ j < n + 1 := by omega
          simp [hj2, this]

theorem absSerial_spec {F : Type} (ops : FloatOps F) (values output : List F) (N : Nat)
    (hv : N ≤ values.length) (ho : N ≤ output.length) :
    ∃ out', absSerial ops values output N = .ok out' ∧ out'.length = output.length ∧
      ∀ j, out'[j]? = if j < N then (values[j]?).map (fun x => if ops.lt x ops.zero then ops.neg x else x) else output[j]? := by
  cases values with
  | nil =>
    have : N = 0 := by simpa using hv
    subst this
    exact ⟨output, rfl, rfl, fun j => by simp⟩
  | cons d tl =>
    obtain ⟨out', h1, h2, h3⟩ := foldlM_range_set
      (fun out i => do
        let x ← readAt (d :: tl) i
        if ops.lt x ops.zero then writeAt out i (ops.neg x) else writeAt out i x)
      (fun i => (fun x => if ops.lt x ops.zero then ops.neg x else x) ((d :: tl).getD i d)) N
      (fun out i hi hl => by
        have hi2 : i < (d :: tl).length := by omega
        have hr : readAt (d :: tl) i = .ok ((d :: tl).getD i d) :=
          readAt_of_getElem? (by simp [List.getD, List.getElem?_eq_getElem hi2])
        simp only [hr, bind_ok]
        split <;> exact writeAt_of_lt _ hl)
      output ho
    refine ⟨out', h1, h2, fun j => ?_⟩
    rw [h3 j]
    by_cases hj : j < N
    · have hj2 : j < (d :: tl).length := by omega
      simp [hj, List.getD, List.getElem?_eq_getElem hj2]
    · simp [hj]

theorem clampedExpSerial_spec {F : Type} (ops : FloatOps F) (values : List F)
    (exponents : List Int) (output : List F) (N : Nat)
    (hv : N ≤ values.length) (he : N ≤ exponents.length) (ho : N ≤ output.length) :
    ∃ out', clampedExpSerial ops values exponents output N = .ok out' ∧
      out'.length = output.length ∧
      (∀ j, N ≤ j → out'[j]? = output[j]?) ∧
      ∀ j v e, j < N → values[j]? = some v → exponents[j]? = some e →
        out'[j]? = some (clampedExpSerialElem ops v e) := by
  cases values with
  | nil =>
    have : N = 0 := by simpa using hv
    subst this
    exact ⟨output, rfl, rfl, fun j _ => rfl, fun j v e hj => absurd hj (by simp)⟩
  | cons d tl =>
    obtain ⟨out', h1, h2, h3⟩ := foldlM_range_set
      (fun out i => do
        let x ← readAt (d :: tl) i
        let y ← readAt exponents i
        writeAt out i (clampedExpSerialElem ops x y))
      (fun i => clampedExpSerialElem ops ((d :: tl).getD i d) (exponents.getD i 0)) N
      (fun out i hi hl => by
        have hi2 : i < (d :: tl).length := by omega
        have hi3 : i < exponents.length := by omega
        have hr : readAt (d :: tl) i = .ok ((d :: tl).getD i d) :=
          readAt_of_getElem? (by simp [List.getD, List.getElem?_eq_getElem hi2])
        have hr2 : readAt exponents i = .ok (exponents.getD i 0) :=
          readAt_of_getElem? (by simp [List.getD, List.getElem?_eq_getElem hi3])
        simp only [hr, hr2, bind_ok]
        exact writeAt_of_lt _ hl)
      output ho
    refine ⟨out', h1, h2, fun j hj => ?_, fun j v e hj hv he => ?_⟩
    · rw [h3 j, if_neg (by omega)]
    · rw [h3 j, if_pos hj]
      simp [List.getD, hv, he]

/-- In exact arithmetic the squaring loop multiplies `result` by `xpower ^ y`. -/
theorem clampedExpSerialWhile_exact (n : Nat) : ∀ (y : Int) (result xpower : ℚ),
    0 ≤ y → y.toNat ≤ n →
    clampedExpSerialWhile exactOps y result xpower = result * xpower ^ y.toNat := by
  induction n with
  | zero =>
    intro y result xpower h0 hn
    have : y = 0 := by omega
    subst this
    rw [clampedExpSerialWhile_nonpos _ (by decide)]
    simp
  | succ n ih =>
    intro y result xpower h0 hn
    by_cases hy : y > 0
    · rw [clampedExpSerialWhile_pos _ hy, shiftRight_one, land_one_of_nonneg h0]
      have hdiv : 0 ≤ y / 2 := by omega
      rw [ih (y / 2) _ _ hdiv (by omega)]
      have hsplit : y.toNat = 2 * (y / 2).toNat + (y % 2).toNat := by omega
      rcases Int.emod_two_eq_zero_or_one y with hm | hm
      · rw [hsplit, hm]
        simp [exactOps, pow_add, pow_mul, sq]
      · rw [hsplit, hm]
        simp [exactOps, pow_add, pow_mul, sq]
        ring
    · have : y = 0 := by omega
      subst this
      rw [clampedExpSerialWhile_nonpos _ (by decide)]
      simp

theorem clampedExpSerialElem_exact (x : ℚ) (y : Int) (h0 : 0 ≤ y) :
    clampedExpSerialElem exactOps x y = min (x ^ y.toNat) (209 / 50) := by
  unfold clampedExpSerialElem
  rw [clampedExpSerialWhile_exact y.toNat y _ _ h0 (Nat.le_refl _)]
  simp only [exactOps, one_mul, decide_eq_true_eq]
  split
  · next h => exact (min_eq_right (le_of_lt h)).symm
  · next h => exact (min_eq_left (not_lt.mp h)).symm

theorem absSerial_elem_exact (x : ℚ) :
    (if exactOps.lt x exactOps.zero then exactOps.neg x else x) = |x| := by
  simp only [exactOps, decide_eq_true_eq]
  split
  · next h => exact (abs_of_neg h).symm
  · next h => exact (abs_of_nonneg (not_lt.mp h)).symm

theorem arraySumSerial_spec {F : Type} (ops : FloatOps F) (values : List F) (N : Nat)
    (hv : N ≤ values.length) :
    arraySumSerial ops values N = .ok ((values.take N).foldl ops.add ops.zero) := by
  induction N with
  | zero => rfl
  | succ n ih =>
    have hn : n < values.length := by omega
    unfold arraySumSerial at ih ⊢
    rw [List.range_succ, List.foldlM_append, ih (Nat.le_of_succ_le hv)]
    rw [List.take_succ, List.foldl_append, List.getElem?_eq_getElem hn]
    simp [readAt, List.getElem?_eq_getElem hn, bind, Except.bind, pure, Except.pure]

theorem foldl_add_exact (l : List ℚ) (a : ℚ) : l.foldl exactOps.add a = a + l.sum := by
  induction l generalizing a with
  | nil => simp
  | cons x xs ih =>
    rw [List.foldl_cons, ih, List.sum_cons]
    simp [exactOps, add_assoc]

/-! ## The masked loop of `clampedExpVector` -/

theorem body_maskAll {W : Nat} {F : Type} (ops : FloatOps F) (r : ExpRegs W F) :
    (clampedExpVectorBody ops r).maskAll = r.maskAll := rfl

/-- What one iteration of the masked loop does to an active lane. -/
theorem body_active {W : Nat} {F : Type} (ops : FloatOps F) (r : ExpRegs W F) (l : Fin W)
    (h : r.maskAll l = true) :
    (clampedExpVectorBody ops r).y l = Int.shiftRight (r.y l) 1 ∧
    (clampedExpVectorBody ops r).result l =
      (if Int.land (r.y l) 1 > 0 then ops.mul (r.result l) (r.xpower l) else r.result l) ∧
    (clampedExpVectorBody ops r).xpower l = ops.mul (r.xpower l) (r.xpower l) ∧
    (clampedExpVectorBody ops r).maskGreaterThan0 l = decide (Int.shiftRight (r.y l) 1 > 0) := by
  simp [clampedExpVectorBody, cmu418_vgt_int, cmu418_vcmp, cmu418_vop, cmu418_vbitand_int,
    cmu418_vmult_float, cmu418_vshiftright_int, cmu418_vset, h]

/-- One iteration of the masked loop leaves the `maskGreaterThan0` bit of an
inactive lane as it was. -/
theorem body_inactive {W : Nat} {F : Type} (ops : FloatOps F) (r : ExpRegs W F) (l : Fin W)
    (h : r.maskAll l = false) :
    (clampedExpVectorBody ops r).maskGreaterThan0 l = r.maskGreaterThan0 l ∧
    (clampedExpVectorBody ops r).y l = r.y l := by
  simp [clampedExpVectorBody, cmu418_vgt_int, cmu418_vcmp, cmu418_vop,
    cmu418_vshiftright_int, h]

/-- The masked loop never accesses memory. -/
theorem while_ne_outOfBounds {W : Nat} {F : Type} (ops : FloatOps F) (fuel : Nat) :
    ∀ r : ExpRegs W F, clampedExpVectorWhile ops fuel r ≠ .error .outOfBounds := by
  induction fuel with
  | zero =>
    intro r
    unfold clampedExpVectorWhile
    split <;> simp
  | succ n ih =>
    intro r
    unfold clampedExpVectorWhile
    split
    · exact ih _
    · simp

/-- Soundness of the masked loop: when it exits, `maskAll` is as
before, `maskGreaterThan0` is clear in every lane, and each active lane that
entered with a non-negative exponent holds in `result` what the serial loop
computes from that lane's entry state. -/
theorem while_sound {W : Nat} {F : Type} (ops : FloatOps F) (fuel : Nat) :
    ∀ r r' : ExpRegs W F, clampedExpVectorWhile ops fuel r = .ok r' →
      (∀ l, r.maskAll l = true → r.maskGreaterThan0 l = decide (r.y l > 0)) →
      r'.maskAll = r.maskAll ∧ (∀ l, r'.maskGreaterThan0 l = false) ∧
      ∀ l, r.maskAll l = true → 0 ≤ r.y l →
        r'.result l = clampedExpSerialWhile ops (r.y l) (r.result l) (r.xpower l) := by
  have base : ∀ r r' : ExpRegs W F, ¬ cmu418_cntbits r.maskGreaterThan0 > 0 →
      Except.ok r = (Except.ok r' : Except Err (ExpRegs W F)) →
      (∀ l, r.maskAll l = true → r.maskGreaterThan0 l = decide (r.y l > 0)) →
      r'.maskAll = r.maskAll ∧ (∀ l, r'.maskGreaterThan0 l = false) ∧
      ∀ l, r.maskAll l = true → 0 ≤ r.y l →
        r'.result l = clampedExpSerialWhile ops (r.y l) (r.result l) (r.xpower l) := by
    intro r r' hc heq hact
    have hrr : r = r' := by injection heq
    subst hrr
    have hall := (cntbits_not_pos_iff _).mp hc
    refine ⟨rfl, hall, fun l hl h0 => ?_⟩
    have h1 := hact l hl
    rw [hall l] at h1
    have hy : ¬ r.y l > 0 := by simpa using h1.symm
    rw [clampedExpSerialWhile_nonpos ops hy]
  induction fuel with
  | zero =>
    intro r r' hrun hact
    unfold clampedExpVectorWhile at hrun
    split at hrun
    · exact absurd hrun (by simp)
    · next hc => exact base r r' hc hrun hact
  | succ n ih =>
    intro r r' hrun hact
    unfold clampedExpVectorWhile at hrun
    split at hrun
    · have hact' : ∀ l, (clampedExpVectorBody ops r).maskAll l = true →
          (clampedExpVectorBody ops r).maskGreaterThan0 l =
            decide ((clampedExpVectorBody ops r).y l > 0) := by
        intro l hl
        obtain ⟨hy, -, -, hm⟩ := body_active ops r l hl
        rw [hm, hy]
      obtain ⟨h1, h2, h3⟩ := ih _ _ hrun hact'
      refine ⟨h1, h2, fun l hl h0 => ?_⟩
      obtain ⟨hy, hres, hxp, -⟩ := body_active ops r l hl
      have h0' : 0 ≤ (clampedExpVectorBody ops r).y l := by
        rw [hy, shiftRight_one]; omega
      rw [h3 l hl h0', hy, hres, hxp]
      by_cases hpos : r.y l > 0
      · rw [clampedExpSerialWhile_pos ops hpos]
        have hbit : (Int.land (r.y l) 1 > 0) ↔ (Int.land (r.y l) 1 ≠ 0) := by
          have := land_one_nonneg (r.y l)
          omega
        simp only [hbit]
      · have hz : r.y l = 0 := by omega
        rw [hz]
        have hs : Int.shiftRight 0 1 = 0 := rfl
        rw [hs, land_zero_one, clampedExpSerialWhile_nonpos ops (by decide),
          clampedExpSerialWhile_nonpos ops (by decide)]
        simp
    · next hc => exact base r r' hc hrun hact

/-- Termination of the masked loop: when `maskGreaterThan0` is set exactly on
the active lanes with a positive exponent and the fuel is at least every
active exponent, the loop exits. -/
theorem while_terminates {W : Nat} {F : Type} (ops : FloatOps F) (fuel : Nat) :
    ∀ r : ExpRegs W F,
      (∀ l, r.maskGreaterThan0 l = (r.maskAll l && decide (r.y l > 0))) →
      (∀ l, r.maskAll l = true → r.y l ≤ fuel) →
      ∃ r', clampedExpVectorWhile ops fuel r = .ok r' := by
  induction fuel with
  | zero =>
    intro r hm hb
    unfold clampedExpVectorWhile
    split
    · next hc =>
      obtain ⟨l, hl⟩ := (cntbits_pos_iff _).mp hc
      rw [hm l] at hl
      simp only [Bool.and_eq_true, decide_eq_true_eq] at hl
      have := hb l hl.1
      omega
    · exact ⟨r, rfl⟩
  | succ n ih =>
    intro r hm hb
    unfold clampedExpVectorWhile
    split
    · apply ih
      · intro l
        cases hl : r.maskAll l with
        | true =>
          obtain ⟨hy, -, -, hmm⟩ := body_active ops r l hl
          rw [hmm, hy, body_maskAll, hl]
          simp
        | false =>
          obtain ⟨hmm, -⟩ := body_inactive ops r l hl
          rw [hmm, body_maskAll, hl, hm l, hl]
          simp
      · intro l hl
        rw [body_maskAll] at hl
        obtain ⟨hy, -, -, -⟩ := body_active ops r l hl
        rw [hy, shiftRight_one]
        have := hb l hl
        push_cast at this
        omega
    · exact ⟨r, rfl⟩

/-- The defect of the masked loop: a lane outside `maskAll` whose
`maskGreaterThan0` bit is set keeps the loop running for ever. -/
theorem while_stuck {W : Nat} {F : Type} (ops : FloatOps F) (fuel : Nat) :
    ∀ r : ExpRegs W F, (∃ l, r.maskAll l = false ∧ r.maskGreaterThan0 l = true) →
      clampedExpVectorWhile ops fuel r = .error .outOfFuel := by
  induction fuel with
  | zero =>
    intro r ⟨l, _, hl⟩
    unfold clampedExpVectorWhile
    rw [if_pos ((cntbits_pos_iff _).mpr ⟨l, hl⟩)]
  | succ n ih =>
    intro r ⟨l, hl1, hl2⟩
    unfold clampedExpVectorWhile
    rw [if_pos ((cntbits_pos_iff _).mpr ⟨l, hl2⟩)]
    apply ih
    refine ⟨l, by rw [body_maskAll]; exact hl1, ?_⟩
    rw [(body_inactive ops r l hl1).1]
    exact hl2

/-! ## Masked loads and stores -/

theorem bind_eq_ok {α β : Type} {x : Except Err α} {f : α → Except Err β} {b : β}
    (h : x >>= f = Except.ok b) : ∃ a, x = Except.ok a ∧ f a = Except.ok b :=
  match x, h with
  | Except.ok a, h => ⟨a, rfl, h⟩
  | Except.error _, h => nomatch h

theorem bind_eq_outOfBounds {α β : Type} {x : Except Err α} {f : α → Except Err β}
    (h : (x >>= f) = .error .outOfBounds) :
    x = .error .outOfBounds ∨ ∃ a, x = .ok a ∧ f a = .error .outOfBounds := by
  cases x with
  | error e => left; simpa [bind, Except.bind] using h
  | ok a => right; exact ⟨a, rfl, h⟩

theorem vload_ok {W : Nat} {α : Type} (dest : cmu418_vec W α) (src : List α) (off : Nat)
    (mask : cmu418_mask W) (h : ∀ l : Fin W, mask l = true → off + l.val < src.length) :
    cmu418_vload dest src off mask =
      .ok (fun l => if mask l then src.getD (off + l.val) (dest l) else dest l) := by
  unfold cmu418_vload
  rw [if_pos h]

theorem vload_inv {W : Nat} {α : Type} {dest : cmu418_vec W α} {src : List α} {off : Nat}
    {mask : cmu418_mask W} {x : cmu418_vec W α} (h : cmu418_vload dest src off mask = .ok x) :
    (∀ l : Fin W, mask l = true → off + l.val < src.length) ∧
    ∀ l : Fin W, mask l = true → src[off + l.val]? = some (x l) := by
  unfold cmu418_vload at h
  split at h
  · next hb =>
    injection h with h
    subst h
    refine ⟨hb, fun l hl => ?_⟩
    have := hb l hl
    simp [hl, List.getD, List.getElem?_eq_getElem this]
  · exact absurd h (by simp)

theorem vstore_ok {W : Nat} {α : Type} (dest : List α) (off : Nat) (src : cmu418_vec W α)
    (mask : cmu418_mask W) (h : ∀ l : Fin W, mask l = true → off + l.val < dest.length) :
    ∃ out, cmu418_vstore dest off src mask = .ok out := by
  unfold cmu418_vstore
  rw [if_pos h]
  exact ⟨_, rfl⟩

theorem vstore_inv {W : Nat} {α : Type} {dest : List α} {off : Nat} {src : cmu418_vec W α}
    {mask : cmu418_mask W} {out : List α} (h : cmu418_vstore dest off src mask = .ok out) :
    out.length = dest.length ∧
    (∀ l : Fin W, mask l = true → out[off + l.val]? = some (src l)) ∧
    ∀ j, (∀ l : Fin W, mask l = true → off + l.val ≠ j) → out[j]? = dest[j]? := by
  unfold cmu418_vstore at h
  split at h
  · next hb =>
    injection h with h
    subst h
    refine ⟨by simp, fun l hl => ?_, fun j hj => ?_⟩
    · have hlt := hb l hl
      rw [List.getElem?_eq_getElem (by simpa using hlt)]
      simp [hl]
    · by_cases hjl : j < dest.length
      · rw [List.getElem?_eq_getElem (by simpa using hjl), List.getElem?_eq_getElem hjl]
        simp only [List.getElem_ofFn, Option.some.injEq]
        split
        · next hc =>
          split
          · next hm => exact absurd (show off + (j - off) = j by omega) (hj ⟨j - off, hc.2⟩ hm)
          · rfl
        · rfl
      · rw [List.getElem?_eq_none (by simpa using hjl), List.getElem?_eq_none (by omega)]
  · exact absurd h (by simp)

/-! ## One lane group of `clampedExpVector` -/

/-- In a run of the `for` loop the active-lane mask of the group starting at
`i` covers exactly the lanes whose index `i + l` is below `N`. -/
theorem group_mask {W : Nat} (N i : Nat) (m : cmu418_mask W) (hdvd : W ∣ i) (hi : i < N)
    (hm : m = cmu418_init_ones W W) (l : Fin W) :
    (if i + W > N then cmu418_init_ones W (N % W) else m) l = decide (i + l.val < N) := by
  have hl := l.isLt
  split
  · next h =>
    obtain ⟨q, rfl⟩ := hdvd
    have hmod : N % W = N - W * q := by
      have h1 : N = (N - W * q) + W * q := by omega
      rw [h1, Nat.add_mul_mod_self_left, Nat.mod_eq_of_lt (by omega)]
      omega
    simp only [cmu418_init_ones, hmod, decide_eq_decide]
    omega
  · next h =>
    subst hm
    simp only [cmu418_init_ones, decide_eq_decide]
    omega

theorem group_sound {W : Nat} {F : Type} (ops : FloatOps F) (fuel : Nat) (values : List F)
    (exponents : List Int) (N i : Nat) (s s' : ExpRegs W F × List F)
    (h : clampedExpVectorGroup ops fuel values exponents N i s = .ok s')
    (hmask : ∀ l : Fin W, (if i + W > N then cmu418_init_ones W (N % W) else s.1.maskAll) l
      = decide (i + l.val < N)) :
    (∀ l : Fin W, s'.1.maskAll l = decide (i + l.val < N)) ∧
    (∀ l, s'.1.maskGreaterThan0 l = false) ∧
    s'.2.length = s.2.length ∧
    (∀ j, (j < i ∨ N ≤ j) → s'.2[j]? = s.2[j]?) ∧
    ∀ j v e, i ≤ j → j < N → j < i + W → values[j]? = some v → exponents[j]? = some e →
      0 ≤ e → s'.2[j]? = some (clampedExpSerialElem ops v e) := by
  simp only [clampedExpVectorGroup] at h
  obtain ⟨xp, hxp, h⟩ := bind_eq_ok h
  obtain ⟨y, hy, h⟩ := bind_eq_ok h
  obtain ⟨r1, hw, h⟩ := bind_eq_ok h
  obtain ⟨out1, hst, h⟩ := bind_eq_ok h
  have hs' := Except.ok.inj h
  subst hs'
  obtain ⟨hmA, hmG, hres⟩ := while_sound ops fuel _ r1 hw (by
    intro l hl
    simp only at hl
    simp [cmu418_vgt_int, cmu418_vcmp, cmu418_vset, hl])
  simp only at hmA hres
  obtain ⟨hlen, hset, hframe⟩ := vstore_inv hst
  have hA : ∀ l : Fin W, r1.maskAll l = decide (i + l.val < N) := by
    intro l; rw [hmA]; exact hmask l
  refine ⟨hA, hmG, hlen, fun j hj => ?_, fun j v e hij hjN hjW hv he h0 => ?_⟩
  · apply hframe
    intro l hl
    rw [hA l] at hl
    have := of_decide_eq_true hl
    omega
  · have hlane : j - i < W := by omega
    have hjl : i + (⟨j - i, hlane⟩ : Fin W).val = j := by simp; omega
    have hact : r1.maskAll ⟨j - i, hlane⟩ = true := by
      rw [hA]; simp; omega
    have hact0 := hact
    rw [hmA] at hact0
    have hxv := (vload_inv hxp).2 _ hact0
    have hyv := (vload_inv hy).2 _ hact0
    rw [hjl] at hxv hyv
    rw [hv] at hxv
    rw [he] at hyv
    have hxv' := Option.some.inj hxv
    have hyv' := Option.some.inj hyv
    subst hxv' hyv'
    have hs := hset _ hact
    rw [hjl] at hs
    have hr := hres _ hact0 h0
    rw [hs]
    simp only [clampedExpSerialElem, cmu418_vset_masked, cmu418_vgt_float, cmu418_vcmp,
      cmu418_vset, hact, if_true, hr]

theorem group_ne_outOfBounds {W : Nat} {F : Type} (ops : FloatOps F) (fuel : Nat)
    (values : List F) (exponents : List Int) (N i : Nat) (s : ExpRegs W F × List F)
    (hv : N ≤ values.length) (he : N ≤ exponents.length) (ho : N ≤ s.2.length)
    (hmask : ∀ l : Fin W, (if i + W > N then cmu418_init_ones W (N % W) else s.1.maskAll) l
      = decide (i + l.val < N)) :
    clampedExpVectorGroup ops fuel values exponents N i s ≠ .error .outOfBounds := by
  intro h
  have hb : ∀ (len : Nat), N ≤ len → ∀ l : Fin W,
      (if i + W > N then cmu418_init_ones W (N % W) else s.1.maskAll) l = true →
      i + l.val < len := by
    intro len hlen l hl
    rw [hmask l] at hl
    have := of_decide_eq_true hl
    omega
  simp only [clampedExpVectorGroup] at h
  rw [vload_ok _ _ _ _ (hb _ hv), vload_ok _ _ _ _ (hb _ he)] at h
  simp only [bind_ok] at h
  rcases bind_eq_outOfBounds h with h1 | ⟨r1, hw, h⟩
  · exact while_ne_outOfBounds ops fuel _ h1
  · obtain ⟨hmA, -, -⟩ := while_sound ops fuel _ r1 hw (by
      intro l hl
      simp only at hl
      simp [cmu418_vgt_int, cmu418_vcmp, cmu418_vset, hl])
    obtain ⟨out, hout⟩ := vstore_ok s.2 i
      (cmu418_vset_masked r1.result ops.limit
        (cmu418_vgt_float ops r1.maskGreaterThanUpperLimit r1.result
          (cmu418_vset W ops.limit) r1.maskAll)) r1.maskAll (by
        rw [hmA]; exact hb _ ho)
    rw [hout] at h
    exact absurd h (by simp [bind, Except.bind, pure, Except.pure])

theorem group_terminates {W : Nat} {F : Type} (ops : FloatOps F) (fuel : Nat)
    (values : List F) (exponents : List Int) (N i : Nat) (s : ExpRegs W F × List F)
    (hv : N ≤ values.length) (he : N ≤ exponents.length) (ho : N ≤ s.2.length)
    (hmask : ∀ l : Fin W, (if i + W > N then cmu418_init_ones W (N % W) else s.1.maskAll) l
      = decide (i + l.val < N))
    (hclean : ∀ l : Fin W, ¬ i + l.val < N → s.1.maskGreaterThan0 l = false)
    (hfuel : ∀ (j : Nat) (e : Int), exponents[j]? = some e → e ≤ (fuel : Int)) :
    ∃ s', clampedExpVectorGroup ops fuel values exponents N i s = .ok s' := by
  have hb : ∀ (len : Nat), N ≤ len → ∀ l : Fin W,
      (if i + W > N then cmu418_init_ones W (N % W) else s.1.maskAll) l = true →
      i + l.val < len := by
    intro len hlen l hl
    rw [hmask l] at hl
    have := of_decide_eq_true hl
    omega
  simp only [clampedExpVectorGroup]
  generalize (if i + W > N then cmu418_init_ones W (N % W) else s.1.maskAll) = m at hmask hb ⊢
  rw [vload_ok _ _ _ _ (hb _ hv), vload_ok _ _ _ _ (hb _ he)]
  simp only [bind_ok]
  obtain ⟨r1, hw⟩ := while_terminates ops fuel
    { s.1 with
      y := fun l => if m l then exponents.getD (i + l.val) (s.1.y l) else s.1.y l
      result := cmu418_vset W ops.one
      xpower := fun l => if m l then values.getD (i + l.val) (s.1.xpower l) else s.1.xpower l
      maskAll := m
      maskGreaterThan0 := cmu418_vgt_int s.1.maskGreaterThan0
        (fun l => if m l then exponents.getD (i + l.val) (s.1.y l) else s.1.y l)
        (cmu418_vset W 0) m }
    (by
      intro l
      simp only [cmu418_vgt_int, cmu418_vcmp, cmu418_vset]
      by_cases hl : m l = true
      · simp [hl]
      · have hl' : m l = false := by simpa using hl
        rw [hmask l] at hl'
        simp [hl, hclean l (of_decide_eq_false hl')])
    (by
      intro l hl
      simp only at hl
      simp only [hl, if_true]
      have hlt := hb _ he l hl
      apply hfuel (i + l.val)
      simp [List.getD, List.getElem?_eq_getElem hlt])
  rw [hw]
  simp only [bind_ok]
  obtain ⟨hmA, -, -⟩ := while_sound ops fuel _ r1 hw (by
    intro l hl
    simp only at hl
    simp [cmu418_vgt_int, cmu418_vcmp, cmu418_vset, hl])
  obtain ⟨out, hout⟩ := vstore_ok s.2 i
    (cmu418_vset_masked r1.result ops.limit
      (cmu418_vgt_float ops r1.maskGreaterThanUpperLimit r1.result
        (cmu418_vset W ops.limit) r1.maskAll)) r1.maskAll (by
      rw [hmA]; exact hb _ ho)
  rw [hout]
  exact ⟨_, rfl⟩

/-! ## The `for` loop of `clampedExpVector` -/

theorem ones_of_lt {W : Nat} {N i : Nat} {m : cmu418_mask W}
    (hm : ∀ l : Fin W, m l = decide (i + l.val < N)) (h : i + W < N) :
    m = cmu418_init_ones W W := by
  funext l
  have := l.isLt
  rw [hm l]
  simp only [cmu418_init_ones, decide_eq_decide]
  omega

theorem for_sound {W : Nat} {F : Type} (ops : FloatOps F) (fuel : Nat) (values : List F)
    (exponents : List Int) (N : Nat) (k : Nat) :
    ∀ (i : Nat) (s s' : ExpRegs W F × List F),
      clampedExpVectorFor ops fuel values exponents N k i s = .ok s' →
      W ∣ i → (i < N → s.1.maskAll = cmu418_init_ones W W) →
      s'.2.length = s.2.length ∧
      (∀ j, (j < i ∨ N ≤ j) → s'.2[j]? = s.2[j]?) ∧
      ∀ j v e, i ≤ j → j < N → values[j]? = some v → exponents[j]? = some e → 0 ≤ e →
        s'.2[j]? = some (clampedExpSerialElem ops v e) := by
  induction k with
  | zero =>
    intro i s s' h hdvd hm
    unfold clampedExpVectorFor at h
    split at h
    · exact absurd h (by simp)
    · next hi =>
      have := Except.ok.inj h
      subst this
      exact ⟨rfl, fun j _ => rfl, fun j v e h1 h2 => absurd (Nat.lt_of_le_of_lt h1 h2) hi⟩
  | succ k ih =>
    intro i s s' h hdvd hm
    unfold clampedExpVectorFor at h
    split at h
    · next hi =>
      obtain ⟨s1, hg, hrest⟩ := bind_eq_ok h
      obtain ⟨g1, -, g3, g4, g5⟩ := group_sound ops fuel values exponents N i s s1 hg
        (group_mask N i s.1.maskAll hdvd hi (hm hi))
      obtain ⟨r1, r2, r3⟩ := ih (i + W) s1 s' hrest (Dvd.dvd.add hdvd (dvd_refl W))
        (fun hlt => ones_of_lt g1 hlt)
      refine ⟨by rw [r1, g3], fun j hj => ?_, fun j v e h1 h2 hv he h0 => ?_⟩
      · rw [r2 j (by omega), g4 j hj]
      · by_cases hjW : j < i + W
        · rw [r2 j (Or.inl hjW)]
          exact g5 j v e h1 h2 hjW hv he h0
        · exact r3 j v e (by omega) h2 hv he h0
    · next hi =>
      have := Except.ok.inj h
      subst this
      exact ⟨rfl, fun j _ => rfl, fun j v e h1 h2 => absurd (Nat.lt_of_le_of_lt h1 h2) hi⟩

theorem for_ne_outOfBounds {W : Nat} {F : Type} (ops : FloatOps F) (fuel : Nat)
    (values : List F) (exponents : List Int) (N : Nat)
    (hv : N ≤ values.length) (he : N ≤ exponents.length) (k : Nat) :
    ∀ (i : Nat) (s : ExpRegs W F × List F),
      W ∣ i → (i < N → s.1.maskAll = cmu418_init_ones W W) → N ≤ s.2.length →
      clampedExpVectorFor ops fuel values exponents N k i s ≠ .error .outOfBounds := by
  induction k with
  | zero =>
    intro i s _ _ _
    unfold clampedExpVectorFor
    split <;> simp
  | succ k ih =>
    intro i s hdvd hm ho h
    unfold clampedExpVectorFor at h
    split at h
    · next hi =>
      have hmask := group_mask N i s.1.maskAll hdvd hi (hm hi)
      rcases bind_eq_outOfBounds h with h1 | ⟨s1, hg, hrest⟩
      · exact group_ne_outOfBounds ops fuel values exponents N i s hv he ho hmask h1
      · obtain ⟨g1, -, g3, -, -⟩ := group_sound ops fuel values exponents N i s s1 hg hmask
        exact ih (i + W) s1 (Dvd.dvd.add hdvd (dvd_refl W)) (fun hlt => ones_of_lt g1 hlt)
          (by rw [g3]; exact ho) hrest
    · exact absurd h (by simp)

theorem for_terminates {W : Nat} {F : Type} (ops : FloatOps F) (fuel : Nat)
    (values : List F) (exponents : List Int) (N : Nat)
    (hv : N ≤ values.length) (he : N ≤ exponents.length)
    (hfuel : ∀ (j : Nat) (e : Int), exponents[j]? = some e → e ≤ (fuel : Int)) (k : Nat) :
    ∀ (i : Nat) (s : ExpRegs W F × List F),
      W ∣ i → (i < N → s.1.maskAll = cmu418_init_ones W W) → N ≤ s.2.length →
      (∀ l : Fin W, ¬ i + l.val < N → s.1.maskGreaterThan0 l = false) →
      N ≤ i + k * W →
      ∃ s', clampedExpVectorFor ops fuel values exponents N k i s = .ok s' := by
  induction k with
  | zero =>
    intro i s _ _ _ _ hk
    unfold clampedExpVectorFor
    rw [if_neg (by omega)]
    exact ⟨s, rfl⟩
  | succ k ih =>
    intro i s hdvd hm ho hclean hk
    unfold clampedExpVectorFor
    split
    · next hi =>
      have hmask := group_mask N i s.1.maskAll hdvd hi (hm hi)
      obtain ⟨s1, hg⟩ := group_terminates ops fuel values exponents N i s hv he ho hmask
        hclean hfuel
      obtain ⟨g1, g2, g3, -, -⟩ := group_sound ops fuel values exponents N i s s1 hg hmask
      rw [hg]
      simp only [bind_ok]
      exact ih (i + W) s1 (Dvd.dvd.add hdvd (dvd_refl W)) (fun hlt => ones_of_lt g1 hlt)
        (by rw [g3]; exact ho) (fun l _ => g2 l) (by rw [Nat.succ_mul] at hk; omega)
    · exact ⟨s, rfl⟩

/-! ## The kernel `clampedExpVector` -/

/-- Soundness of `clampedExpVector`: whenever the kernel returns, the
buffer has its length, is unchanged from index `N` on, and holds at every
index below `N` with a non-negative exponent what `clampedExpSerial` stores
there. -/
theorem clampedExpVector_sound {W : Nat} {F : Type} (ops : FloatOps F) (fuel : Nat)
    (r0 : ExpRegs W F) (values : List F) (exponents : List Int) (output out' : List F) (N : Nat)
    (h : clampedExpVector ops fuel r0 values exponents output N = .ok out') :
    out'.length = output.length ∧
    (∀ j, N ≤ j → out'[j]? = output[j]?) ∧
    ∀ j v e, j < N → values[j]? = some v → exponents[j]? = some e → 0 ≤ e →
      out'[j]? = some (clampedExpSerialElem ops v e) := by
  unfold clampedExpVector at h
  obtain ⟨s', hfor, hs⟩ := bind_eq_ok h
  have := Except.ok.inj hs
  subst this
  obtain ⟨h1, h2, h3⟩ := for_sound ops fuel values exponents N fuel 0 _ s' hfor
    (dvd_zero W) (fun _ => rfl)
  exact ⟨h1, fun j hj => h2 j (Or.inr hj), fun j v e hj => h3 j v e (Nat.zero_le j) hj⟩

/-- Memory safety of `clampedExpVector`: on buffers that hold `N` elements no
masked load or store leaves them. -/
theorem clampedExpVector_ne_outOfBounds {W : Nat} {F : Type} (ops : FloatOps F) (fuel : Nat)
    (r0 : ExpRegs W F) (values : List F) (exponents : List Int) (output : List F) (N : Nat)
    (hv : N ≤ values.length) (he : N ≤ exponents.length) (ho : N ≤ output.length) :
    clampedExpVector ops fuel r0 values exponents output N ≠ .error .outOfBounds := by
  intro h
  unfold clampedExpVector at h
  rcases bind_eq_outOfBounds h with h1 | ⟨s', -, hs⟩
  · exact for_ne_outOfBounds ops fuel values exponents N hv he fuel 0 _
      (dvd_zero W) (fun _ => rfl) ho h1
  · exact absurd hs (by simp [pure, Except.pure])

/-- Termination of `clampedExpVector`: with fuel at least `N` and at least
every exponent, the kernel returns, provided the uninitialised
`maskGreaterThan0` is clear in the lanes from `N` on (which are none when
`VECTOR_WIDTH ≤ N`). -/
theorem clampedExpVector_terminates {W : Nat} {F : Type} (ops : FloatOps F) (fuel : Nat)
    (r0 : ExpRegs W F) (values : List F) (exponents : List Int) (output : List F) (N : Nat)
    (hW : 0 < W)
    (hv : N ≤ values.length) (he : N ≤ exponents.length) (ho : N ≤ output.length)
    (hN : N ≤ fuel)
    (hfuel : ∀ (j : Nat) (e : Int), exponents[j]? = some e → e ≤ (fuel : Int))
    (hclean : ∀ l : Fin W, N ≤ l.val → r0.maskGreaterThan0 l = false) :
    ∃ out', clampedExpVector ops fuel r0 values exponents output N = .ok out' := by
  obtain ⟨s', hs⟩ := for_terminates ops fuel values exponents N hv he hfuel fuel 0
    ({ r0 with maskAll := cmu418_init_ones W W }, output) (dvd_zero W) (fun _ => rfl) ho
    (fun l hl => hclean l (by omega))
    (by
      have : fuel * 1 ≤ fuel * W := Nat.mul_le_mul_left fuel hW
      omega)
  unfold clampedExpVector
  rw [hs]
  exact ⟨s'.2, rfl⟩

/-- On non-negative exponents `clampedExpVector` returns what `clampedExpSerial`
returns, provided the uninitialised `maskGreaterThan0` is clear in the lanes
from `N` on (which are none when `VECTOR_WIDTH ≤ N`). -/
theorem clampedExpVector_eq_serial {W : Nat} {F : Type} (ops : FloatOps F) (fuel : Nat)
    (r0 : ExpRegs W F) (values : List F) (exponents : List Int) (output : List F) (N : Nat)
    (hW : 0 < W)
    (hv : N ≤ values.length) (he : N ≤ exponents.length) (ho : N ≤ output.length)
    (hN : N ≤ fuel)
    (hfuel : ∀ (j : Nat) (e : Int), exponents[j]? = some e → e ≤ (fuel : Int))
    (hclean : ∀ l : Fin W, N ≤ l.val → r0.maskGreaterThan0 l = false)
    (hpos : ∀ (j : Nat) (e : Int), j < N → exponents[j]? = some e → 0 ≤ e) :
    clampedExpVector ops fuel r0 values exponents output N =
      clampedExpSerial ops values exponents output N := by
  obtain ⟨out1, h1⟩ := clampedExpVector_terminates ops fuel r0 values exponents output N hW
    hv he ho hN hfuel hclean
  obtain ⟨out2, h2, l2, f2, e2⟩ := clampedExpSerial_spec ops values exponents output N hv he ho
  obtain ⟨l1, f1, e1⟩ := clampedExpVector_sound ops fuel r0 values exponents output out1 N h1
  rw [h1, h2]
  congr 1
  apply List.ext_getElem?
  intro j
  by_cases hj : j < N
  · have hjv : j < values.length := by omega
    have hje : j < exponents.length := by omega
    have hv' := List.getElem?_eq_getElem hjv
    have he' := List.getElem?_eq_getElem hje
    rw [e1 j _ _ hj hv' he' (hpos j _ hj he'), e2 j _ _ hj hv' he']
  · rw [f1 j (by omega), f2 j (by omega)]

/-- The defect of `clampedExpVector`: when `0 < N < VECTOR_WIDTH` the first
group is not full, the lanes from `N` on of the uninitialised
`maskGreaterThan0` are never assigned, and a set bit among them keeps
`_cmu418_cntbits(maskGreaterThan0) > 0` true for ever. -/
theorem clampedExpVector_stuck {W : Nat} {F : Type} (ops : FloatOps F)
    (r0 : ExpRegs W F) (values : List F) (exponents : List Int) (output : List F) (N : Nat)
    (hv : N ≤ values.length) (he : N ≤ exponents.length) (hN : 0 < N)
    (hg : ∃ l : Fin W, N ≤ l.val ∧ r0.maskGreaterThan0 l = true) (fuel : Nat) :
    clampedExpVector ops fuel r0 values exponents output N = .error .outOfFuel := by
  unfold clampedExpVector
  cases fuel with
  | zero =>
    unfold clampedExpVectorFor
    rw [if_pos hN]
    rfl
  | succ k =>
    unfold clampedExpVectorFor
    rw [if_pos hN]
    have hmask := @group_mask W N 0 (cmu418_init_ones W W) (dvd_zero W) hN rfl
    have hb : ∀ (len : Nat), N ≤ len → ∀ l : Fin W,
        (if 0 + W > N then cmu418_init_ones W (N % W) else cmu418_init_ones W W) l = true →
        0 + l.val < len := by
      intro len hlen l hl
      rw [hmask l] at hl
      have := of_decide_eq_true hl
      omega
    simp only [clampedExpVectorGroup]
    rw [vload_ok _ _ _ _ (hb _ hv), vload_ok _ _ _ _ (hb _ he)]
    simp only [bind_ok]
    rw [while_stuck]
    · rfl
    · obtain ⟨l, hl1, hl2⟩ := hg
      have hml := hmask l
      rw [decide_eq_false (by omega)] at hml
      refine ⟨l, hml, ?_⟩
      simp only [cmu418_vgt_int, cmu418_vcmp, hml]
      simpa using hl2

/-! ## absVector -/

theorem absVectorBody_cases {W : Nat} {F : Type} (ops : FloatOps F) (values : List F) (i : Nat)
    (s : AbsState W F) :
    absVectorBody ops values i s = .error .outOfBounds ∨
      ∃ s', absVectorBody ops values i s = .ok s' := by
  simp only [absVectorBody, cmu418_vload, cmu418_vstore]
  split
  · simp only [bind_ok]
    split
    · simp only [bind_ok]
      split
      · right; exact ⟨_, rfl⟩
      · left; rfl
    · left; rfl
  · left; rfl

/-- The group of `absVector` that starts less than `VECTOR_WIDTH` elements
before the end of `values` reads out of bounds. -/
theorem absVectorBody_overrun {W : Nat} {F : Type} (ops : FloatOps F) (values : List F)
    (i : Nat) (s : AbsState W F) (hi : i ≤ values.length) (h : values.length < i + W) :
    absVectorBody ops values i s = .error .outOfBounds := by
  simp only [absVectorBody, cmu418_vload]
  rw [if_neg]
  · rfl
  · intro hall
    have hlane : values.length - i < W := by omega
    have := hall ⟨values.length - i, hlane⟩ (by simp [cmu418_init_ones]; omega)
    simp at this
    omega

/-- The defect of `absVector`: on a buffer of `N` elements with `N` not a
multiple of `VECTOR_WIDTH` the kernel accesses memory out of bounds. -/
theorem absVectorFor_overrun {W : Nat} {F : Type} (ops : FloatOps F) (values : List F)
    (N : Nat) (hv : values.length = N) (hN : N % W ≠ 0) (k : Nat) :
    ∀ (i : Nat) (s : AbsState W F), W ∣ i → i ≤ N → N < i + k * W →
      absVectorFor ops values N k i s = .error .outOfBounds := by
  induction k with
  | zero => intro i s _ h1 h2; omega
  | succ k ih =>
    intro i s hdvd hi hk
    have hne : i ≠ N := by
      intro h
      subst h
      exact hN (Nat.mod_eq_zero_of_dvd hdvd)
    have hlt : i < N := by omega
    unfold absVectorFor
    rw [if_pos hlt]
    by_cases hlast : N < i + W
    · rw [absVectorBody_overrun ops values i s (by omega) (by omega)]
      rfl
    · rcases absVectorBody_cases ops values i s with h | ⟨s1, h⟩
      · rw [h]; rfl
      · rw [h]
        simp only [bind_ok]
        exact ih (i + W) s1 (Dvd.dvd.add hdvd (dvd_refl W)) (by omega)
          (by rw [Nat.succ_mul] at hk; omega)

theorem absVector_overrun {W : Nat} {F : Type} (ops : FloatOps F) (fuel : Nat)
    (x0 result0 : cmu418_vec W F) (values output : List F) (N : Nat)
    (hv : values.length = N) (hN : N % W ≠ 0) (hfuel : N < fuel * W) :
    absVector ops fuel x0 result0 values output N = .error .outOfBounds := by
  unfold absVector
  rw [absVectorFor_overrun ops values N hv hN fuel 0 _ (dvd_zero W) (Nat.zero_le N)
    (by omega)]
  rfl

/-! ## The kernels against their contracts -/

/-- In exact arithmetic, whenever `clampedExpVector` returns, every index below
`N` with a non-negative exponent holds `min (v ^ e) 4.18`. -/
theorem clampedExpVector_exact {W : Nat} (fuel : Nat) (r0 : ExpRegs W ℚ) (values : List ℚ)
    (exponents : List Int) (output out' : List ℚ) (N : Nat)
    (h : clampedExpVector exactOps fuel r0 values exponents output N = .ok out')
    (j : Nat) (v : ℚ) (e : Int) (hj : j < N) (hv : values[j]? = some v)
    (he : exponents[j]? = some e) (h0 : 0 ≤ e) :
    out'[j]? = some (min (v ^ e.toNat) (209 / 50)) := by
  rw [(clampedExpVector_sound exactOps fuel r0 values exponents output out' N h).2.2
    j v e hj hv he h0, clampedExpSerialElem_exact v e h0]

/-- C1 (defect): with `VECTOR_WIDTH = 4`, `N = 2`, values `[2, 3]` and exponents
`[1, 2]`, `clampedExpSerial` stores `[2, 4.18]`, but `clampedExpVector`,
entered with the bits of the uninitialised `maskGreaterThan0` set, never leaves
its `while` loop: no amount of fuel yields an output. -/
theorem clampedExpVector_hangs_below_width :
    (∀ fuel : Nat,
      clampedExpVector exactOps fuel (dirtyRegs 4) [2, 3] [1, 2] [0, 0] 2
        = .error .outOfFuel) ∧
    clampedExpSerial exactOps [2, 3] [1, 2] [0, 0] 2 = .ok [2, 209 / 50] := by
  refine ⟨fun fuel => clampedExpVector_stuck exactOps (dirtyRegs 4) _ _ _ 2 (by decide)
    (by decide) (by decide) ⟨3, by decide, rfl⟩ fuel, ?_⟩
  simp [clampedExpSerial, List.range, List.range.loop, readAt, writeAt, bind, Except.bind,
    clampedExpSerialElem_exact]
  norm_num
  rfl

/-- C2: in exact arithmetic `clampedExpSerial` returns, and for every index
`i < N` with a non-negative exponent `e` and value `v` the squaring loop
computes the power `v ^ e` and the kernel stores `min (v ^ e) 4.18` in
`output[i]`. -/
theorem clampedExpSerial_min_pow (values : List ℚ) (exponents : List Int) (output : List ℚ)
    (N : Nat) (hv : N ≤ values.length) (he : N ≤ exponents.length) (ho : N ≤ output.length) :
    ∃ out', clampedExpSerial exactOps values exponents output N = .ok out' ∧
      ∀ (i : Nat) (v : ℚ) (e : Int), i < N → values[i]? = some v → exponents[i]? = some e →
        0 ≤ e →
        clampedExpSerialWhile exactOps e exactOps.one v = v ^ e.toNat ∧
        out'[i]? = some (min (v ^ e.toNat) (209 / 50)) := by
  obtain ⟨out', h1, -, -, h4⟩ :=
    clampedExpSerial_spec exactOps values exponents output N hv he ho
  refine ⟨out', h1, fun i v e hi hvi hei h0 => ⟨?_, ?_⟩⟩
  · rw [clampedExpSerialWhile_exact e.toNat e _ _ h0 (Nat.le_refl _)]
    simp [exactOps]
  · rw [h4 i v e hi hvi hei, clampedExpSerialElem_exact v e h0]

/-- Witness for C2: values `[2, 1/2]`, exponents `[3, 2]`: index 0 holds the
ceiling, index 1 holds `1/4`. -/
theorem clampedExpSerial_min_pow_witness :
    ∃ out', clampedExpSerial exactOps [2, 1 / 2] [3, 2] [0, 0] 2 = .ok out' ∧
      out'[0]? = some (209 / 50) ∧ out'[1]? = some (1 / 4) := by
  obtain ⟨out', h1, h2⟩ :=
    clampedExpSerial_min_pow [2, 1 / 2] [3, 2] [0, 0] 2 (by decide) (by decide) (by decide)
  refine ⟨out', h1, ?_, ?_⟩
  · rw [(h2 0 2 3 (by decide) rfl rfl (by decide)).2]
    norm_num [show Int.toNat 3 = 3 from rfl]
  · rw [(h2 1 (1 / 2) 2 (by decide) rfl rfl (by decide)).2]
    norm_num [show Int.toNat 2 = 2 from rfl]

/-- C3 (defect): with `VECTOR_WIDTH = 4` and the three-element input
`[-1.5, 2, 0]`, `absSerial` stores `[1.5, 2, 0]`, but the first group of
`absVector` loads lane 3 from `values[3]`, outside the buffer. -/
theorem absVector_example_out_of_bounds :
    (∀ (fuel : Nat) (x0 result0 : cmu418_vec 4 ℚ),
      absVector exactOps (fuel + 1) x0 result0 [-3 / 2, 2, 0] [0, 0, 0] 3
        = .error .outOfBounds) ∧
    absSerial exactOps [-3 / 2, 2, 0] [0, 0, 0] 3 = .ok [3 / 2, 2, 0] := by
  refine ⟨fun fuel x0 result0 => absVector_overrun exactOps (fuel + 1) x0 result0 _ _ 3 rfl
    (by decide) (by omega), ?_⟩
  simp [absSerial, List.range, List.range.loop, readAt, writeAt, bind, Except.bind, exactOps]
  norm_num
  rfl

/-- C4: in exact arithmetic `absSerial` returns, and for every index `i < N`
with value `x` it stores `-x` when `x < 0` and `x` otherwise, which is `|x|`;
every element it stores is non-negative; on `[-1.5, 2, 0]` it stores
`[1.5, 2, 0]`. -/
theorem absSerial_abs (values output : List ℚ) (N : Nat)
    (hv : N ≤ values.length) (ho : N ≤ output.length) :
    (∃ out', absSerial exactOps values output N = .ok out' ∧
      (∀ (i : Nat) (x : ℚ), i < N → values[i]? = some x →
        out'[i]? = some (if x < 0 then -x else x) ∧ out'[i]? = some |x|) ∧
      ∀ (i : Nat) (y : ℚ), i < N → out'[i]? = some y → 0 ≤ y) ∧
    absSerial exactOps [-3 / 2, 2, 0] [0, 0, 0] 3 = .ok [3 / 2, 2, 0] := by
  constructor
  · obtain ⟨out', h1, -, h3⟩ := absSerial_spec exactOps values output N hv ho
    have key : ∀ (i : Nat) (x : ℚ), i < N → values[i]? = some x → out'[i]? = some |x| := by
      intro i x hi hx
      rw [h3 i, if_pos hi, hx, Option.map_some', absSerial_elem_exact]
    refine ⟨out', h1, fun i x hi hx => ⟨?_, key i x hi hx⟩, fun i y hi hy => ?_⟩
    · rw [key i x hi hx]
      congr 1
      split
      · next h => exact abs_of_neg h
      · next h => exact abs_of_nonneg (not_lt.mp h)
    · have hlt : i < values.length := by omega
      rw [key i _ hi (List.getElem?_eq_getElem hlt)] at hy
      rw [← Option.some.inj hy]
      exact abs_nonneg _
  · simp [absSerial, List.range, List.range.loop, readAt, writeAt, bind, Except.bind, exactOps]
    norm_num
    rfl

/-- Witness for C4: the input `[-1.5, 2, 0]` with `N = 3`. -/
theorem absSerial_abs_witness :
    ∃ out', absSerial exactOps [-3 / 2, 2, 0] [7, 7, 7] 3 = .ok out' ∧
      out'[0]? = some (3 / 2) := by
  obtain ⟨⟨out', h1, h2, -⟩, -⟩ := absSerial_abs [-3 / 2, 2, 0] [7, 7, 7] 3 (by decide) (by decide)
  refine ⟨out', h1, ?_⟩
  rw [(h2 0 (-3 / 2) (by decide) rfl).2]
  norm_num [abs_of_neg]

/-- C5 (defect): `arraySumVector` returns `0` for every input, while
`arraySumSerial` returns `10` on `[1, 2, 3, 4]` with `N = 4`. -/
theorem arraySumVector_returns_zero :
    (∀ (values : List ℚ) (N : Nat), arraySumVector exactOps values N = .ok 0) ∧
    arraySumSerial exactOps [1, 2, 3, 4] 4 = .ok 10 := by
  refine ⟨fun _ _ => rfl, ?_⟩
  rw [arraySumSerial_spec exactOps _ _ (by decide)]
  norm_num [exactOps]

/-- C6: in exact arithmetic `arraySumSerial` returns the left fold
`((0 + V[0]) + V[1]) + ... + V[N-1]` of the first `N` elements, which is their
sum. -/
theorem arraySumSerial_left_fold (values : List ℚ) (N : Nat) (hv : N ≤ values.length) :
    arraySumSerial exactOps values N
      = .ok ((values.take N).foldl (fun sum v => sum + v) 0) ∧
    arraySumSerial exactOps values N = .ok (values.take N).sum := by
  have h := arraySumSerial_spec exactOps values N hv
  refine ⟨h, ?_⟩
  rw [h, foldl_add_exact]
  simp [exactOps]

/-- Witness for C6: `[1, 2, 3, 4]` with `N = 4` sums to `10`. -/
theorem arraySumSerial_left_fold_witness :
    arraySumSerial exactOps [1, 2, 3, 4] 4 = .ok 10 :=
  (arraySumSerial_left_fold [1, 2, 3, 4] 4 (by decide)).2.trans (by norm_num)

/-- C7: on buffers `values` and `exponents` of exactly `N` elements and an
output buffer of at least `N` elements, `clampedExpVector` never accesses
memory out of bounds, whatever the fuel, the exponents and the initial
register contents; the mask used by the loads and the store of the group
starting at `i` selects exactly the lanes `l` with `i + l < N`; and when the
kernel returns, the output buffer has kept its length and its entries from
index `N` on. -/
theorem clampedExpVector_in_bounds {W : Nat} {F : Type} (ops : FloatOps F) (fuel : Nat)
    (r0 : ExpRegs W F) (values : List F) (exponents : List Int) (output : List F) (N : Nat)
    (hv : values.length = N) (he : exponents.length = N) (ho : N ≤ output.length) :
    clampedExpVector ops fuel r0 values exponents output N ≠ .error .outOfBounds ∧
    (∀ (i : Nat) (l : Fin W), W ∣ i → i < N →
      (if i + W > N then cmu418_init_ones W (N % W) else cmu418_init_ones W W) l
        = decide (i + l.val < N)) ∧
    ∀ out', clampedExpVector ops fuel r0 values exponents output N = .ok out' →
      out'.length = output.length ∧ ∀ j, N ≤ j → out'[j]? = output[j]? := by
  refine ⟨clampedExpVector_ne_outOfBounds ops fuel r0 values exponents output N
    (by omega) (by omega) ho, fun i l hdvd hi => group_mask N i _ hdvd hi rfl l,
    fun out' h => ?_⟩
  obtain ⟨h1, h2, -⟩ := clampedExpVector_sound ops fuel r0 values exponents output out' N h
  exact ⟨h1, h2⟩

/-- Witness for C7: `VECTOR_WIDTH = 4`, `N = 6`, an output buffer of 7 elements. -/
theorem clampedExpVector_in_bounds_witness :
    clampedExpVector exactOps 10 (dirtyRegs 4) [2, 3, 1 / 2, 1, 5, 6] [3, 0, 2, 5, 1, 0]
      [0, 0, 0, 0, 0, 0, 7] 6 ≠ .error .outOfBounds :=
  (clampedExpVector_in_bounds exactOps 10 (dirtyRegs 4) [2, 3, 1 / 2, 1, 5, 6]
    [3, 0, 2, 5, 1, 0] [0, 0, 0, 0, 0, 0, 7] 6 rfl rfl (by decide)).1

/-- C8 (defect): with `VECTOR_WIDTH = 4` and `N = 6`, the second group of
`absVector` loads lanes 2 and 3 from `values[6]` and `values[7]`, outside the
six-element buffer, whatever the output buffer and the initial registers. -/
theorem absVector_overruns_remainder :
    ∀ (fuel : Nat) (x0 result0 : cmu418_vec 4 ℚ) (output : List ℚ),
      absVector exactOps (fuel + 2) x0 result0 [1, -2, 3, -4, 5, -6] output 6
        = .error .outOfBounds :=
  fun fuel x0 result0 output =>
    absVector_overrun exactOps (fuel + 2) x0 result0 _ output 6 rfl (by decide) (by omega)

/-- C9 (defect): with `VECTOR_WIDTH = 4`, `N = 1`, value `5` and exponent `0`,
`clampedExpSerial` stores `1`, but `clampedExpVector`, entered with the bits of
the uninitialised `maskGreaterThan0` set, never leaves its `while` loop and
stores nothing. -/
theorem clampedExpVector_zero_exponent_hangs :
    (∀ fuel : Nat,
      clampedExpVector exactOps fuel (dirtyRegs 4) [5] [0] [0] 1 = .error .outOfFuel) ∧
    clampedExpSerial exactOps [5] [0] [0] 1 = .ok [1] := by
  refine ⟨fun fuel => clampedExpVector_stuck exactOps (dirtyRegs 4) _ _ _ 1 (by decide)
    (by decide) (by decide) ⟨3, by decide, rfl⟩ fuel, ?_⟩
  simp [clampedExpSerial, List.range, List.range.loop, readAt, writeAt, bind, Except.bind,
    clampedExpSerialElem_exact]
  norm_num
  rfl

/-- C10 (defect): with `VECTOR_WIDTH = 4`, on the input `values = [2]`,
`exponents = [3]`, `N = 1`, `clampedExpVector` stores the ceiling `4.18` when
it is entered with clear mask registers, but entered with the bits of the
uninitialised `maskGreaterThan0` set it never leaves its `while` loop and
stores nothing. -/
theorem clampedExpVector_clamp_example_hangs :
    (∀ fuel : Nat,
      clampedExpVector exactOps fuel (dirtyRegs 4) [2] [3] [0] 1 = .error .outOfFuel) ∧
    (∀ fuel : Nat,
      clampedExpVector exactOps (fuel + 3) (zeroRegs 4) [2] [3] [0] 1 = .ok [209 / 50]) := by
  refine ⟨fun fuel => clampedExpVector_stuck exactOps (dirtyRegs 4) _ _ _ 1 (by decide)
    (by decide) (by decide) ⟨3, by decide, rfl⟩ fuel, fun fuel => ?_⟩
  rw [clampedExpVector_eq_serial exactOps (fuel + 3) (zeroRegs 4) [2] [3] [0] 1 (by decide)
    (by decide) (by decide) (by decide) (by omega)
    (fun j e h => by
      cases j with
      | zero =>
        have : e = 3 := by simpa using h.symm
        subst this
        push_cast
        omega
      | succ j => simp at h)
    (fun l _ => rfl)
    (fun j e hj h => by
      have hj0 : j = 0 := by omega
      subst hj0
      have : e = 3 := by simpa using h.symm
      subst this
      decide)]
  simp [clampedExpSerial, List.range, List.range.loop, readAt, writeAt, bind, Except.bind,
    clampedExpSerialElem_exact]
  norm_num
  rfl

/-! ## Empty input and negative exponents -/

/-- C11: for `N = 0` every kernel returns at once, whatever the buffers, the
fuel and the initial registers: `absSerial`, `absVector`, `clampedExpSerial`
and `clampedExpVector` leave the output buffer as it is (no element is
written), and `arraySumSerial` and `arraySumVector` return `0.f`, which is `0`
in exact arithmetic. -/
theorem kernels_zero_length {W : Nat} {F : Type} (ops : FloatOps F) (fuel : Nat)
    (x0 result0 : cmu418_vec W F) (r0 : ExpRegs W F) (values : List F) (exponents : List Int)
    (output : List F) :
    absSerial ops values output 0 = .ok output ∧
    absVector ops fuel x0 result0 values output 0 = .ok output ∧
    clampedExpSerial ops values exponents output 0 = .ok output ∧
    clampedExpVector ops fuel r0 values exponents output 0 = .ok output ∧
    arraySumSerial ops values 0 = .ok ops.zero ∧
    arraySumVector ops values 0 = .ok ops.zero ∧
    exactOps.zero = 0 := by
  refine ⟨rfl, ?_, rfl, ?_, rfl, rfl, rfl⟩
  · cases fuel <;> rfl
  · cases fuel <;> rfl

/-- C18: in exact arithmetic `clampedExpSerial` returns, and for every index
`i < N` whose exponent `e` is negative the condition `y > 0` is false on entry,
the loop hands back `result` untouched (zero iterations), and `output[i]` is
`1`, whatever `values[i]` is. -/
theorem clampedExpSerial_negative_exponent (values : List ℚ) (exponents : List Int)
    (output : List ℚ) (N : Nat)
    (hv : N ≤ values.length) (he : N ≤ exponents.length) (ho : N ≤ output.length) :
    ∃ out', clampedExpSerial exactOps values exponents output N = .ok out' ∧
      ∀ (i : Nat) (v : ℚ) (e : Int), i < N → values[i]? = some v → exponents[i]? = some e →
        e < 0 →
        ¬ e > 0 ∧
        (∀ result xpower : ℚ, clampedExpSerialWhile exactOps e result xpower = result) ∧
        out'[i]? = some 1 := by
  obtain ⟨out', h1, -, -, h4⟩ :=
    clampedExpSerial_spec exactOps values exponents output N hv he ho
  refine ⟨out', h1, fun i v e hi hvi hei hneg => ?_⟩
  have hn : ¬ e > 0 := by omega
  refine ⟨hn, fun result xpower => clampedExpSerialWhile_nonpos exactOps hn result xpower, ?_⟩
  rw [h4 i v e hi hvi hei]
  unfold clampedExpSerialElem
  rw [clampedExpSerialWhile_nonpos exactOps hn]
  simp only [exactOps]
  norm_num

/-- Witness for C18: value `2` with exponent `-1` gives `1`. -/
theorem clampedExpSerial_negative_exponent_witness :
    ∃ out', clampedExpSerial exactOps [2] [-1] [0] 1 = .ok out' ∧ out'[0]? = some 1 := by
  obtain ⟨out', h1, h2⟩ :=
    clampedExpSerial_negative_exponent [2] [-1] [0] 1 (by decide) (by decide) (by decide)
  exact ⟨out', h1, (h2 0 2 (-1) (by decide) (by simp) (by simp) (by decide)).2.2⟩

/-- C13 (counterexample): with a negative exponent both kernels terminate:
`clampedExpSerial` on value `2`, exponent `-1` returns `[1]`, and
`clampedExpVector` with `VECTOR_WIDTH = 4` returns on the group of exponents
`[-1, 3, 0, 1]`, whatever the initial registers. -/
theorem negative_exponent_terminates_example :
    clampedExpSerial exactOps [2] [-1] [0] 1 = .ok [1] ∧
    ∀ r0 : ExpRegs 4 ℚ,
      ∃ out, clampedExpVector exactOps 4 r0 [2, 2, 2, 2] [-1, 3, 0, 1] [0, 0, 0, 0] 4
        = .ok out := by
  constructor
  · simp [clampedExpSerial, clampedExpSerialElem, List.range, List.range.loop, readAt, writeAt,
      bind, Except.bind, clampedExpSerialWhile_nonpos, exactOps]
    norm_num
    rfl
  · intro r0
    refine clampedExpVector_terminates exactOps 4 r0 _ _ _ 4 (by decide) (by decide)
      (by decide) (by decide) (by decide) (fun j e h => ?_) (fun l hl => ?_)
    · have hmem := List.getElem?_mem h
      simp only [List.mem_cons, List.mem_singleton, List.not_mem_nil, or_false] at hmem
      rcases hmem with rfl | rfl | rfl | rfl <;> decide
    · exact absurd hl (by omega)

/-- C13 (amended): a negative exponent does not keep either loop running.  The
loop `while (y > 0)` of `clampedExpSerial` hands back `result` at once for a
negative exponent and the kernel returns for every exponent array; and
`clampedExpVector` returns for every exponent array, negative elements
included, when the lanes from `N` on of `maskGreaterThan0` are clear on entry
and the fuel is at least `N` and at least every exponent. -/
theorem negative_exponent_terminates {W : Nat} {F : Type} (ops : FloatOps F) (fuel : Nat)
    (r0 : ExpRegs W F) (values : List F) (exponents : List Int) (output : List F) (N : Nat)
    (hW : 0 < W)
    (hv : N ≤ values.length) (he : N ≤ exponents.length) (ho : N ≤ output.length)
    (hN : N ≤ fuel)
    (hfuel : ∀ (j : Nat) (e : Int), exponents[j]? = some e → e ≤ (fuel : Int))
    (hclean : ∀ l : Fin W, N ≤ l.val → r0.maskGreaterThan0 l = false) :
    (∀ (e : Int) (result xpower : F), e < 0 →
      clampedExpSerialWhile ops e result xpower = result) ∧
    (∃ out, clampedExpSerial ops values exponents output N = .ok out) ∧
    ∃ out, clampedExpVector ops fuel r0 values exponents output N = .ok out := by
  refine ⟨fun e result xpower hneg =>
    clampedExpSerialWhile_nonpos ops (by omega) result xpower, ?_,
    clampedExpVector_terminates ops fuel r0 values exponents output N hW hv he ho hN hfuel
      hclean⟩
  obtain ⟨out, h, -⟩ := clampedExpSerial_spec ops values exponents output N hv he ho
  exact ⟨out, h⟩

/-- Witness for C13 (amended): `VECTOR_WIDTH = 4`, a full group with exponents
`[-1, 3, 0, 1]`, entered with every bit of `maskGreaterThan0` set. -/
theorem negative_exponent_terminates_witness :
    ∃ out, clampedExpVector exactOps 4 (dirtyRegs 4) [2, 2, 2, 2] [-1, 3, 0, 1] [0, 0, 0, 0] 4
      = .ok out :=
  (negative_exponent_terminates exactOps 4 (dirtyRegs 4) [2, 2, 2, 2] [-1, 3, 0, 1]
    [0, 0, 0, 0] 4 (by decide) (by decide) (by decide) (by decide) (by decide)
    (fun j e h => by
      have hmem := List.getElem?_mem h
      simp only [List.mem_cons, List.mem_singleton, List.not_mem_nil, or_false] at hmem
      rcases hmem with rfl | rfl | rfl | rfl <;> decide)
    (fun l hl => absurd hl (by omega))).2.2

/-! ## The states of the masked loop -/

/-- The group of `clampedExpVector` is: enter (lines 110-118), run the `while`
loop, clamp and store. -/
theorem group_entry {W : Nat} {F : Type} (ops : FloatOps F) (fuel : Nat) (values : List F)
    (exponents : List Int) (N i : Nat) (s : ExpRegs W F × List F) :
    clampedExpVectorGroup ops fuel values exponents N i s =
      (clampedExpVectorEntry ops values exponents N i s.1 >>= fun e =>
        clampedExpVectorWhile ops fuel e >>= fun r =>
          cmu418_vstore s.2 i
            (cmu418_vset_masked r.result ops.limit
              (cmu418_vgt_float ops r.maskGreaterThanUpperLimit r.result
                (cmu418_vset W ops.limit) r.maskAll)) r.maskAll >>= fun output =>
            pure ({ r with
                    result := cmu418_vset_masked r.result ops.limit
                      (cmu418_vgt_float ops r.maskGreaterThanUpperLimit r.result
                        (cmu418_vset W ops.limit) r.maskAll)
                    maskGreaterThanUpperLimit :=
                      cmu418_vgt_float ops r.maskGreaterThanUpperLimit r.result
                        (cmu418_vset W ops.limit) r.maskAll }, output)) := by
  simp only [clampedExpVectorGroup, clampedExpVectorEntry, bind_assoc, pure_bind]

/-- What the entry of a group establishes: `maskAll` is the group mask, an
active lane holds its element of `values` and `exponents` and has its
`maskGreaterThan0` bit set exactly when its exponent is positive, `result` is
`1.f` in every lane, and the `maskGreaterThan0` bit of an inactive lane is what
it was before the group. -/
theorem entry_spec {W : Nat} {F : Type} (ops : FloatOps F) (values : List F)
    (exponents : List Int) (N i : Nat) (r e : ExpRegs W F)
    (h : clampedExpVectorEntry ops values exponents N i r = .ok e) :
    e.maskAll = (if i + W > N then cmu418_init_ones W (N % W) else r.maskAll) ∧
    (∀ l, e.result l = ops.one) ∧
    (∀ l, e.maskAll l = true →
      values[i + l.val]? = some (e.xpower l) ∧ exponents[i + l.val]? = some (e.y l) ∧
      e.maskGreaterThan0 l = decide (e.y l > 0)) ∧
    ∀ l, e.maskAll l = false → e.maskGreaterThan0 l = r.maskGreaterThan0 l := by
  simp only [clampedExpVectorEntry] at h
  obtain ⟨xp, hxp, h⟩ := bind_eq_ok h
  obtain ⟨y, hy, h⟩ := bind_eq_ok h
  have he := Except.ok.inj h
  subst he
  refine ⟨rfl, fun l => rfl, fun l hl => ?_, fun l hl => ?_⟩
  · simp only at hl
    refine ⟨(vload_inv hxp).2 l hl, (vload_inv hy).2 l hl, ?_⟩
    simp [cmu418_vgt_int, cmu418_vcmp, cmu418_vset, hl]
  · simp only at hl
    simp [cmu418_vgt_int, cmu418_vcmp, hl]

theorem iterate_maskAll {W : Nat} {F : Type} (ops : FloatOps F) (k : Nat) (r : ExpRegs W F) :
    ((clampedExpVectorBody ops)^[k] r).maskAll = r.maskAll := by
  induction k generalizing r with
  | zero => rfl
  | succ k ih => rw [Function.iterate_succ_apply, ih, body_maskAll]

/-- The loop never assigns the `maskGreaterThan0` bit of an inactive lane. -/
theorem iterate_inactive {W : Nat} {F : Type} (ops : FloatOps F) (k : Nat) (r : ExpRegs W F)
    (l : Fin W) (h : r.maskAll l = false) :
    ((clampedExpVectorBody ops)^[k] r).maskGreaterThan0 l = r.maskGreaterThan0 l := by
  induction k generalizing r with
  | zero => rfl
  | succ k ih =>
    rw [Function.iterate_succ_apply, ih _ (by rw [body_maskAll]; exact h),
      (body_inactive ops r l h).1]

/-- At every evaluation of the loop condition the `maskGreaterThan0` bit of an
active lane is set exactly when the lane's current exponent is positive. -/
theorem iterate_active {W : Nat} {F : Type} (ops : FloatOps F) (k : Nat) (r : ExpRegs W F)
    (h : ∀ l, r.maskAll l = true → r.maskGreaterThan0 l = decide (r.y l > 0))
    (l : Fin W) (hl : r.maskAll l = true) :
    ((clampedExpVectorBody ops)^[k] r).maskGreaterThan0 l
      = decide (((clampedExpVectorBody ops)^[k] r).y l > 0) := by
  induction k generalizing r with
  | zero => exact h l hl
  | succ k ih =>
    rw [Function.iterate_succ_apply]
    apply ih
    · intro l' hl'
      rw [body_maskAll] at hl'
      obtain ⟨hy, -, -, hm⟩ := body_active ops r l' hl'
      rw [hm, hy]
    · rw [body_maskAll]; exact hl

/-- A run of the masked loop that exits has made some number `k` of iterations:
the condition held at the first `k` evaluations and failed at the next. -/
theorem while_iterate {W : Nat} {F : Type} (ops : FloatOps F) (fuel : Nat) :
    ∀ r r' : ExpRegs W F, clampedExpVectorWhile ops fuel r = .ok r' →
      ∃ k, k ≤ fuel ∧ r' = (clampedExpVectorBody ops)^[k] r ∧
        (∀ j, j < k → 0 < cmu418_cntbits ((clampedExpVectorBody ops)^[j] r).maskGreaterThan0) ∧
        ¬ 0 < cmu418_cntbits r'.maskGreaterThan0 := by
  induction fuel with
  | zero =>
    intro r r' h
    unfold clampedExpVectorWhile at h
    split at h
    · exact absurd h (by simp)
    · next hc =>
      have := Except.ok.inj h
      subst this
      exact ⟨0, Nat.le_refl 0, rfl, fun j hj => absurd hj (Nat.not_lt_zero j), hc⟩
  | succ n ih =>
    intro r r' h
    unfold clampedExpVectorWhile at h
    split at h
    · next hc =>
      obtain ⟨k, hk, hr, hbefore, hafter⟩ := ih _ _ h
      refine ⟨k + 1, Nat.succ_le_succ hk, by rw [Function.iterate_succ_apply]; exact hr, ?_,
        hafter⟩
      intro j hj
      cases j with
      | zero => exact hc
      | succ j =>
        rw [Function.iterate_succ_apply]
        exact hbefore j (Nat.lt_of_succ_lt_succ hj)
    · next hc =>
      have := Except.ok.inj h
      subst this
      exact ⟨0, Nat.zero_le _, rfl, fun j hj => absurd hj (Nat.not_lt_zero j), hc⟩

/-- When the loop condition holds at the first `k` evaluations and fails at the
next, a run with at least `k` units of fuel exits after exactly `k`
iterations. -/
theorem while_of_iterate {W : Nat} {F : Type} (ops : FloatOps F) (k : Nat) :
    ∀ (fuel : Nat) (r : ExpRegs W F), k ≤ fuel →
      (∀ j, j < k → 0 < cmu418_cntbits ((clampedExpVectorBody ops)^[j] r).maskGreaterThan0) →
      ¬ 0 < cmu418_cntbits ((clampedExpVectorBody ops)^[k] r).maskGreaterThan0 →
      clampedExpVectorWhile ops fuel r = .ok ((clampedExpVectorBody ops)^[k] r) := by
  induction k with
  | zero =>
    intro fuel r _ _ hc
    have hc' : ¬ cmu418_cntbits r.maskGreaterThan0 > 0 := hc
    cases fuel with
    | zero => unfold clampedExpVectorWhile; rw [if_neg hc']; rfl
    | succ n => unfold clampedExpVectorWhile; rw [if_neg hc']; rfl
  | succ k ih =>
    intro fuel r hf hbefore hafter
    cases fuel with
    | zero => omega
    | succ n =>
      have hc' : cmu418_cntbits r.maskGreaterThan0 > 0 := hbefore 0 (Nat.succ_pos k)
      unfold clampedExpVectorWhile
      rw [if_pos hc', Function.iterate_succ_apply]
      apply ih n _ (by omega)
      · intro j hj
        have := hbefore (j + 1) (by omega)
        rwa [Function.iterate_succ_apply] at this
      · rwa [Function.iterate_succ_apply] at hafter

/-! ## The still-iterating mask -/

/-- One iteration keeps the relation "`maskGreaterThan0` is set exactly on the
active lanes with a positive exponent". -/
theorem body_mask_exact {W : Nat} {F : Type} (ops : FloatOps F) (r : ExpRegs W F)
    (hm : ∀ l, r.maskGreaterThan0 l = (r.maskAll l && decide (r.y l > 0))) (l : Fin W) :
    (clampedExpVectorBody ops r).maskGreaterThan0 l =
      ((clampedExpVectorBody ops r).maskAll l && decide ((clampedExpVectorBody ops r).y l > 0)) := by
  by_cases hl : r.maskAll l = true
  · obtain ⟨hy, -, -, hmm⟩ := body_active ops r l hl
    rw [hmm, hy, body_maskAll, hl]
    simp
  · have hl' : r.maskAll l = false := by simpa using hl
    obtain ⟨hmm, -⟩ := body_inactive ops r l hl'
    rw [hmm, body_maskAll, hl', hm l, hl']
    simp

theorem iterate_mask_exact {W : Nat} {F : Type} (ops : FloatOps F) (k : Nat) (r : ExpRegs W F)
    (hm : ∀ l, r.maskGreaterThan0 l = (r.maskAll l && decide (r.y l > 0))) (l : Fin W) :
    ((clampedExpVectorBody ops)^[k] r).maskGreaterThan0 l =
      (((clampedExpVectorBody ops)^[k] r).maskAll l &&
        decide (((clampedExpVectorBody ops)^[k] r).y l > 0)) := by
  induction k generalizing r with
  | zero => exact hm l
  | succ k ih =>
    rw [Function.iterate_succ_apply]
    exact ih _ (body_mask_exact ops r hm)

/-- When the `maskGreaterThan0` bits of the inactive lanes are clear before the
group, the entry state has `maskGreaterThan0` set exactly on the active lanes
with a positive exponent. -/
theorem entry_mask_exact {W : Nat} {F : Type} (ops : FloatOps F) (values : List F)
    (exponents : List Int) (N i : Nat) (r e : ExpRegs W F)
    (h : clampedExpVectorEntry ops values exponents N i r = .ok e)
    (hclean : ∀ l, e.maskAll l = false → r.maskGreaterThan0 l = false) (l : Fin W) :
    e.maskGreaterThan0 l = (e.maskAll l && decide (e.y l > 0)) := by
  obtain ⟨-, -, hact, hin⟩ := entry_spec ops values exponents N i r e h
  by_cases hl : e.maskAll l = true
  · rw [(hact l hl).2.2, hl]
    simp
  · have hl' : e.maskAll l = false := by simpa using hl
    rw [hin l hl', hclean l hl', hl']
    simp

/-- With `maskGreaterThan0` set exactly on the active lanes with a positive
exponent, the loop condition holds exactly when some active lane has a
positive exponent. -/
theorem cntbits_pos_of_mask_exact {W : Nat} {F : Type} (r : ExpRegs W F)
    (hm : ∀ l, r.maskGreaterThan0 l = (r.maskAll l && decide (r.y l > 0))) :
    0 < cmu418_cntbits r.maskGreaterThan0 ↔ ∃ l, r.maskAll l = true ∧ r.y l > 0 := by
  rw [cntbits_pos_iff]
  constructor
  · rintro ⟨l, hl⟩
    rw [hm l] at hl
    simp only [Bool.and_eq_true, decide_eq_true_eq] at hl
    exact ⟨l, hl⟩
  · rintro ⟨l, h1, h2⟩
    exact ⟨l, by rw [hm l, h1]; simpa using h2⟩

/-- The right shift never makes an exponent that is not positive positive. -/
theorem shiftRight_nonpos {y : Int} (h : ¬ y > 0) : ¬ Int.shiftRight y 1 > 0 := by
  rw [shiftRight_one]
  omega

/-- Within a group a `maskGreaterThan0` bit that is clear at one evaluation of
the loop condition is clear at every later one. -/
theorem mask_monotone {W : Nat} {F : Type} (ops : FloatOps F) (r : ExpRegs W F)
    (h : ∀ l, r.maskAll l = true → r.maskGreaterThan0 l = decide (r.y l > 0))
    (l : Fin W) (j d : Nat)
    (hj : ((clampedExpVectorBody ops)^[j] r).maskGreaterThan0 l = false) :
    ((clampedExpVectorBody ops)^[j + d] r).maskGreaterThan0 l = false := by
  induction d with
  | zero => exact hj
  | succ d ih =>
    rw [← Nat.add_assoc, Function.iterate_succ_apply']
    have hmA : ((clampedExpVectorBody ops)^[j + d] r).maskAll l = r.maskAll l := by
      rw [iterate_maskAll]
    by_cases hl : r.maskAll l = true
    · obtain ⟨-, -, -, hmm⟩ := body_active ops ((clampedExpVectorBody ops)^[j + d] r) l
        (by rw [hmA]; exact hl)
      rw [hmm]
      have hcur := iterate_active ops (j + d) r h l hl
      rw [ih] at hcur
      have hy : ¬ ((clampedExpVectorBody ops)^[j + d] r).y l > 0 := by
        simpa using hcur.symm
      simpa using shiftRight_nonpos hy
    · have hl' : r.maskAll l = false := by simpa using hl
      rw [(body_inactive ops _ l (by rw [hmA]; exact hl')).1]
      exact ih

/-- The number of iterations of the masked loop: when `maskGreaterThan0` is
set exactly on the active lanes with a positive exponent and `M` is the
largest exponent of an active lane, with `2 ^ (k - 1) ≤ M < 2 ^ k`, the loop
condition holds at the first `k` evaluations and fails at the next. -/
theorem trip_count_pow {W : Nat} {F : Type} (ops : FloatOps F) (k : Nat) :
    ∀ (r : ExpRegs W F) (M : Nat),
      (∀ l, r.maskGreaterThan0 l = (r.maskAll l && decide (r.y l > 0))) →
      (∀ l, r.maskAll l = true → r.y l ≤ (M : Int)) →
      (∃ l, r.maskAll l = true ∧ r.y l = (M : Int)) →
      M < 2 ^ k → (k = 0 ∨ 2 ^ (k - 1) ≤ M) →
      (∀ j, j < k → 0 < cmu418_cntbits ((clampedExpVectorBody ops)^[j] r).maskGreaterThan0) ∧
      ¬ 0 < cmu418_cntbits ((clampedExpVectorBody ops)^[k] r).maskGreaterThan0 := by
  induction k with
  | zero =>
    intro r M hm hle _ hlt _
    refine ⟨fun j hj => absurd hj (Nat.not_lt_zero j), ?_⟩
    show ¬ 0 < cmu418_cntbits r.maskGreaterThan0
    rw [cntbits_pos_of_mask_exact r hm]
    rintro ⟨l, h1, h2⟩
    have := hle l h1
    simp at hlt
    omega
  | succ k ih =>
    intro r M hm hle hmax hlt hge
    have hpow : 2 ^ (k + 1) = 2 * 2 ^ k := by rw [pow_succ, mul_comm]
    have hge' : 2 ^ k ≤ M := by
      rcases hge with h | h
      · omega
      · simpa using h
    have hM1 : 1 ≤ M := Nat.le_trans (Nat.one_le_two_pow) hge'
    obtain ⟨lm, hlm1, hlm2⟩ := hmax
    have hstep := ih (clampedExpVectorBody ops r) (M / 2) (body_mask_exact ops r hm)
      (by
        intro l hl
        rw [body_maskAll] at hl
        rw [(body_active ops r l hl).1, shiftRight_one]
        have := hle l hl
        push_cast
        omega)
      ⟨lm, by rw [body_maskAll]; exact hlm1, by
        rw [(body_active ops r lm hlm1).1, shiftRight_one, hlm2]
        push_cast
        omega⟩
      (by omega)
      (by
        cases k with
        | zero => left; rfl
        | succ k' =>
          right
          have h2 : 2 ^ (k' + 1) = 2 * 2 ^ k' := by rw [pow_succ, mul_comm]
          simp only [Nat.add_sub_cancel]
          omega)
    refine ⟨fun j hj => ?_, by rw [Function.iterate_succ_apply]; exact hstep.2⟩
    cases j with
    | zero =>
      show 0 < cmu418_cntbits r.maskGreaterThan0
      rw [cntbits_pos_of_mask_exact r hm]
      exact ⟨lm, hlm1, by rw [hlm2]; exact_mod_cast hM1⟩
    | succ j =>
      rw [Function.iterate_succ_apply]
      exact hstep.1 j (Nat.lt_of_succ_lt_succ hj)

/-- The masked loop makes exactly `Nat.size M` iterations, the bit-length of the
largest exponent `M` of an active lane, when `maskGreaterThan0` is set exactly
on the active lanes with a positive exponent on entry. -/
theorem trip_count_size {W : Nat} {F : Type} (ops : FloatOps F) (fuel : Nat)
    (r : ExpRegs W F) (M : Nat)
    (hm : ∀ l, r.maskGreaterThan0 l = (r.maskAll l && decide (r.y l > 0)))
    (hle : ∀ l, r.maskAll l = true → r.y l ≤ (M : Int))
    (hmax : ∃ l, r.maskAll l = true ∧ r.y l = (M : Int))
    (hfuel : Nat.size M ≤ fuel) :
    clampedExpVectorWhile ops fuel r = .ok ((clampedExpVectorBody ops)^[Nat.size M] r) ∧
    (∀ j, j < Nat.size M →
      0 < cmu418_cntbits ((clampedExpVectorBody ops)^[j] r).maskGreaterThan0) ∧
    ¬ 0 < cmu418_cntbits ((clampedExpVectorBody ops)^[Nat.size M] r).maskGreaterThan0 := by
  have h := trip_count_pow ops (Nat.size M) r M hm hle hmax (Nat.lt_size_self M)
    (by
      by_cases h0 : Nat.size M = 0
      · left; exact h0
      · right
        exact Nat.lt_size.mp (by omega))
  exact ⟨while_of_iterate ops (Nat.size M) fuel r hfuel h.1 h.2, h.1, h.2⟩

/-! ## Lanes that have finished, and the choice of mask for the squaring -/

/-- An active lane whose exponent is `0`: one more iteration leaves its
exponent at `0` and its `result` unchanged, and squares its `xpower`. -/
theorem body_finished_lane {W : Nat} {F : Type} (ops : FloatOps F) (r : ExpRegs W F)
    (l : Fin W) (hl : r.maskAll l = true) (hy : r.y l = 0) :
    (clampedExpVectorBody ops r).y l = 0 ∧
    (clampedExpVectorBody ops r).result l = r.result l ∧
    (clampedExpVectorBody ops r).xpower l = ops.mul (r.xpower l) (r.xpower l) := by
  obtain ⟨h1, h2, h3, -⟩ := body_active ops r l hl
  rw [h1, h2, h3, hy]
  refine ⟨rfl, ?_, rfl⟩
  rw [land_zero_one]
  simp

theorem iterate_finished_lane {W : Nat} {F : Type} (ops : FloatOps F) (d : Nat)
    (r : ExpRegs W F) (l : Fin W) (hl : r.maskAll l = true) (hy : r.y l = 0) :
    ((clampedExpVectorBody ops)^[d] r).y l = 0 ∧
    ((clampedExpVectorBody ops)^[d] r).result l = r.result l := by
  induction d generalizing r with
  | zero => exact ⟨hy, rfl⟩
  | succ d ih =>
    obtain ⟨h1, h2, -⟩ := body_finished_lane ops r l hl hy
    rw [Function.iterate_succ_apply]
    obtain ⟨i1, i2⟩ := ih (clampedExpVectorBody ops r) (by rw [body_maskAll]; exact hl) h1
    exact ⟨i1, by rw [i2, h2]⟩

theorem iterate_nonneg {W : Nat} {F : Type} (ops : FloatOps F) (k : Nat)
    (r : ExpRegs W F) (l : Fin W) (hl : r.maskAll l = true) (hy : 0 ≤ r.y l) :
    0 ≤ ((clampedExpVectorBody ops)^[k] r).y l := by
  induction k generalizing r with
  | zero => exact hy
  | succ k ih =>
    rw [Function.iterate_succ_apply]
    apply ih _ (by rw [body_maskAll]; exact hl)
    rw [(body_active ops r l hl).1, shiftRight_one]
    omega

theorem bodyIterMask_maskAll {W : Nat} {F : Type} (ops : FloatOps F) (r : ExpRegs W F) :
    (clampedExpVectorBodyIterMask ops r).maskAll = r.maskAll := rfl

/-- What one iteration of the variant body does to an active lane. -/
theorem bodyIterMask_active {W : Nat} {F : Type} (ops : FloatOps F) (r : ExpRegs W F)
    (l : Fin W) (h : r.maskAll l = true) :
    (clampedExpVectorBodyIterMask ops r).y l = Int.shiftRight (r.y l) 1 ∧
    (clampedExpVectorBodyIterMask ops r).result l =
      (if Int.land (r.y l) 1 > 0 then ops.mul (r.result l) (r.xpower l) else r.result l) ∧
    (clampedExpVectorBodyIterMask ops r).xpower l =
      (if r.maskGreaterThan0 l then ops.mul (r.xpower l) (r.xpower l) else r.xpower l) ∧
    (clampedExpVectorBodyIterMask ops r).maskGreaterThan0 l
      = decide (Int.shiftRight (r.y l) 1 > 0) := by
  simp [clampedExpVectorBodyIterMask, cmu418_vgt_int, cmu418_vcmp, cmu418_vop,
    cmu418_vbitand_int, cmu418_vmult_float, cmu418_vshiftright_int, cmu418_vset, h]

theorem bodyIterMask_inactive {W : Nat} {F : Type} (ops : FloatOps F) (r : ExpRegs W F)
    (l : Fin W) (h : r.maskAll l = false) :
    (clampedExpVectorBodyIterMask ops r).maskGreaterThan0 l = r.maskGreaterThan0 l := by
  simp [clampedExpVectorBodyIterMask, cmu418_vgt_int, cmu418_vcmp, h]

/-- The two loops run in lock step: started from states that agree on
`maskAll`, on `maskGreaterThan0`, and in every active lane on the exponent, on
`result` if the exponent is non-negative and on `xpower` if it is positive,
either both run out of fuel or both exit, in states that agree in the same
way. -/
theorem while_iterMask_sim {W : Nat} {F : Type} (ops : FloatOps F) (fuel : Nat) :
    ∀ r a : ExpRegs W F,
      a.maskAll = r.maskAll → a.maskGreaterThan0 = r.maskGreaterThan0 →
      (∀ l, r.maskAll l = true → r.maskGreaterThan0 l = decide (r.y l > 0)) →
      (∀ l, r.maskAll l = true → a.y l = r.y l ∧ (0 ≤ r.y l → a.result l = r.result l) ∧
        (0 < r.y l → a.xpower l = r.xpower l)) →
      (clampedExpVectorWhile ops fuel r = .error .outOfFuel ∧
        clampedExpVectorWhileIterMask ops fuel a = .error .outOfFuel) ∨
      ∃ r' a', clampedExpVectorWhile ops fuel r = .ok r' ∧
        clampedExpVectorWhileIterMask ops fuel a = .ok a' ∧
        a'.maskAll = r'.maskAll ∧
        ∀ l, r'.maskAll l = true → 0 ≤ r'.y l → a'.result l = r'.result l := by
  induction fuel with
  | zero =>
    intro r a hA hG _ hlanes
    unfold clampedExpVectorWhile clampedExpVectorWhileIterMask
    rw [hG]
    split
    · left; exact ⟨rfl, rfl⟩
    · right
      exact ⟨r, a, rfl, rfl, hA, fun l hl h0 => (hlanes l hl).2.1 h0⟩
  | succ n ih =>
    intro r a hA hG hact hlanes
    unfold clampedExpVectorWhile clampedExpVectorWhileIterMask
    rw [hG]
    split
    · apply ih
      · rw [bodyIterMask_maskAll, body_maskAll, hA]
      · funext l
        by_cases hl : r.maskAll l = true
        · rw [(bodyIterMask_active ops a l (by rw [hA]; exact hl)).2.2.2,
            (body_active ops r l hl).2.2.2, (hlanes l hl).1]
        · have hl' : r.maskAll l = false := by simpa using hl
          rw [bodyIterMask_inactive ops a l (by rw [hA]; exact hl'),
            (body_inactive ops r l hl').1, hG]
      · intro l hl
        rw [body_maskAll] at hl
        obtain ⟨hy, -, -, hm⟩ := body_active ops r l hl
        rw [hm, hy]
      · intro l hl
        rw [body_maskAll] at hl
        obtain ⟨ry, rres, rxp, -⟩ := body_active ops r l hl
        obtain ⟨ay, ares, axp, -⟩ := bodyIterMask_active ops a l (by rw [hA]; exact hl)
        obtain ⟨hy, hres, hxp⟩ := hlanes l hl
        rw [ry, rres, rxp, ay, ares, axp, hy, shiftRight_one]
        refine ⟨rfl, fun h0 => ?_, fun hpos => ?_⟩
        · have h0' : 0 ≤ r.y l := by omega
          rw [hres h0']
          by_cases hbit : Int.land (r.y l) 1 > 0
          · have hpos : 0 < r.y l := by
              by_cases hz : r.y l = 0
              · rw [hz, land_zero_one] at hbit
                exact absurd hbit (by decide)
              · omega
            rw [if_pos hbit, if_pos hbit, hxp hpos]
          · rw [if_neg hbit, if_neg hbit]
        · have hpos' : 0 < r.y l := by omega
          have hset : a.maskGreaterThan0 l = true := by
            rw [hG, hact l hl]
            simpa using hpos'
          rw [hset, hxp hpos']
          simp
    · right
      exact ⟨r, a, rfl, rfl, hA, fun l hl h0 => (hlanes l hl).2.1 h0⟩

/-! ## The masked loop against its description -/

theorem entry_ok {W : Nat} {F : Type} (ops : FloatOps F) (values : List F)
    (exponents : List Int) (N i : Nat) (r : ExpRegs W F)
    (hv : N ≤ values.length) (he : N ≤ exponents.length)
    (hmask : ∀ l : Fin W, (if i + W > N then cmu418_init_ones W (N % W) else r.maskAll) l
      = decide (i + l.val < N)) :
    ∃ e, clampedExpVectorEntry ops values exponents N i r = .ok e := by
  have hb : ∀ (len : Nat), N ≤ len → ∀ l : Fin W,
      (if i + W > N then cmu418_init_ones W (N % W) else r.maskAll) l = true →
      i + l.val < len := by
    intro len hlen l hl
    rw [hmask l] at hl
    have := of_decide_eq_true hl
    omega
  simp only [clampedExpVectorEntry]
  rw [vload_ok _ _ _ _ (hb _ hv), vload_ok _ _ _ _ (hb _ he)]
  exact ⟨_, rfl⟩

/-- The first group of a run with `0 < N`: the entry state exists, and its
`maskAll` selects the lanes below `N`. -/
theorem first_entry {W : Nat} {F : Type} (ops : FloatOps F) (values : List F)
    (exponents : List Int) (N : Nat) (r0 : ExpRegs W F)
    (hv : N ≤ values.length) (he : N ≤ exponents.length) (hN : 0 < N) :
    ∃ e, clampedExpVectorEntry ops values exponents N 0
        { r0 with maskAll := cmu418_init_ones W W } = .ok e ∧
      (∀ l : Fin W, e.maskAll l = decide (l.val < N)) ∧
      (∀ l : Fin W, l.val < N → exponents[l.val]? = some (e.y l)) ∧
      ∀ l : Fin W, ¬ l.val < N → e.maskGreaterThan0 l = r0.maskGreaterThan0 l := by
  have hmask := @group_mask W N 0 (cmu418_init_ones W W) (dvd_zero W) hN rfl
  obtain ⟨e, h⟩ := entry_ok ops values exponents N 0
    { r0 with maskAll := cmu418_init_ones W W } hv he hmask
  obtain ⟨hA, -, hact, hin⟩ := entry_spec ops values exponents N 0 _ e h
  have hA' : ∀ l : Fin W, e.maskAll l = decide (l.val < N) := by
    intro l
    rw [hA, hmask l]
    simp
  refine ⟨e, h, hA', fun l hl => ?_, fun l hl => ?_⟩
  · have := (hact l (by rw [hA' l]; simpa using hl)).2.1
    simpa using this
  · exact hin l (by rw [hA' l]; simpa using hl)

theorem size_three : Nat.size 3 = 2 := by
  apply Nat.le_antisymm
  · exact Nat.size_le.mpr (by norm_num)
  · exact Nat.lt_size.mpr (by norm_num)

/-- C12 (defect): `VECTOR_WIDTH = 4`, `N = 3`, exponents `[1, 2, 3]`, all
non-negative, largest `3` of bit-length `2`.  Entered with clear mask registers
the loop of the group makes exactly `2` iterations; entered with the bits of
the uninitialised `maskGreaterThan0` set, the loop of the same group never
exits, whatever the fuel, and the kernel stores nothing. -/
theorem trip_count_example_hangs :
    (∃ e : ExpRegs 4 ℚ,
      clampedExpVectorEntry exactOps [2, 2, 2] [1, 2, 3] 3 0
        { dirtyRegs 4 with maskAll := cmu418_init_ones 4 4 } = .ok e ∧
      (∀ l, e.maskAll l = true → 0 ≤ e.y l) ∧
      ∀ fuel, clampedExpVectorWhile exactOps fuel e = .error .outOfFuel) ∧
    (∀ fuel, clampedExpVector exactOps fuel (dirtyRegs 4) [2, 2, 2] [1, 2, 3] [0, 0, 0] 3
      = .error .outOfFuel) ∧
    ∃ e : ExpRegs 4 ℚ,
      clampedExpVectorEntry exactOps [2, 2, 2] [1, 2, 3] 3 0
        { zeroRegs 4 with maskAll := cmu418_init_ones 4 4 } = .ok e ∧
      ∀ fuel, clampedExpVectorWhile exactOps (fuel + 2) e
        = .ok ((clampedExpVectorBody exactOps)^[2] e) := by
  have hmem : ∀ (j : Nat) (x : Int), [1, 2, 3][j]? = some x → 0 ≤ x ∧ x ≤ 3 := by
    intro j x h
    have hm := List.getElem?_mem h
    simp only [List.mem_cons, List.mem_singleton, List.not_mem_nil, or_false] at hm
    rcases hm with rfl | rfl | rfl <;> decide
  refine ⟨?_, fun fuel => clampedExpVector_stuck exactOps (dirtyRegs 4) _ _ _ 3 (by decide)
    (by decide) (by decide) ⟨3, by decide, rfl⟩ fuel, ?_⟩
  · obtain ⟨e, h, hA, hy, hin⟩ := first_entry exactOps [2, 2, 2] [1, 2, 3] 3 (dirtyRegs 4)
      (by decide) (by decide) (by decide)
    refine ⟨e, h, fun l hl => ?_, fun fuel => ?_⟩
    · rw [hA l] at hl
      exact (hmem _ _ (hy l (of_decide_eq_true hl))).1
    · apply while_stuck
      exact ⟨3, by rw [hA 3]; decide, by rw [hin 3 (by decide)]; rfl⟩
  · obtain ⟨e, h, hA, hy, hin⟩ := first_entry exactOps [2, 2, 2] [1, 2, 3] 3 (zeroRegs 4)
      (by decide) (by decide) (by decide)
    refine ⟨e, h, fun fuel => ?_⟩
    have hclean : ∀ l, e.maskAll l = false →
        ({ zeroRegs 4 with maskAll := cmu418_init_ones 4 4 } : ExpRegs 4 ℚ).maskGreaterThan0 l
          = false := fun _ _ => rfl
    have hm := entry_mask_exact exactOps _ _ 3 0 _ e h hclean
    have h2 : e.y 2 = 3 := by
      have := hy 2 (by decide)
      simpa using this.symm
    have := (trip_count_size exactOps (fuel + 2) e 3 hm
      (fun l hl => by
        rw [hA l] at hl
        exact (hmem _ _ (hy l (of_decide_eq_true hl))).2)
      ⟨2, by rw [hA 2]; decide, h2⟩ (by rw [size_three]; omega)).1
    rw [size_three] at this
    exact this

/-- C14 (defect): `VECTOR_WIDTH = 4`, `N = 1`, exponent `0`.  The group is
entered with lane 3 inactive; with the bits of the uninitialised
`maskGreaterThan0` set on entry of the kernel, bit 3 of `maskGreaterThan0` is
set at every evaluation of the loop condition, so the population count is
positive although no active lane has a positive exponent. -/
theorem mask_counts_inactive_lane :
    ∃ e : ExpRegs 4 ℚ,
      clampedExpVectorEntry exactOps [2] [0] 1 0
        { dirtyRegs 4 with maskAll := cmu418_init_ones 4 4 } = .ok e ∧
      e.maskAll 3 = false ∧
      (∀ k, ((clampedExpVectorBody exactOps)^[k] e).maskGreaterThan0 3 = true) ∧
      (∀ k, 0 < cmu418_cntbits ((clampedExpVectorBody exactOps)^[k] e).maskGreaterThan0) ∧
      ∀ k l, ((clampedExpVectorBody exactOps)^[k] e).maskAll l = true →
        ((clampedExpVectorBody exactOps)^[k] e).y l = 0 := by
  obtain ⟨e, h, hA, hy, hin⟩ := first_entry exactOps [2] [0] 1 (dirtyRegs 4)
    (by decide) (by decide) (by decide)
  have h3 : e.maskAll 3 = false := by rw [hA 3]; decide
  have hbit : ∀ k, ((clampedExpVectorBody exactOps)^[k] e).maskGreaterThan0 3 = true := by
    intro k
    rw [iterate_inactive exactOps k e 3 h3, hin 3 (by decide)]
    rfl
  refine ⟨e, h, h3, hbit, fun k => (cntbits_pos_iff _).mpr ⟨3, hbit k⟩, fun k l hl => ?_⟩
  rw [iterate_maskAll] at hl
  have hlt : l.val < 1 := by
    rw [hA l] at hl
    exact of_decide_eq_true hl
  have hy0 : e.y l = 0 := by
    have := hy l hlt
    have hl0 : l.val = 0 := by omega
    rw [hl0] at this
    simpa using this.symm
  exact (iterate_finished_lane exactOps k e l hl hy0).1

/-- C15 (defect): `VECTOR_WIDTH = 4`, `N = 2`, exponents `[0, 0]`.  On entry of
the group no active lane has a positive exponent, yet, entered with the bits
of the uninitialised `maskGreaterThan0` set, the loop does not exit, whatever
the fuel. -/
theorem loop_does_not_exit_example :
    ∃ e : ExpRegs 4 ℚ,
      clampedExpVectorEntry exactOps [3, 3] [0, 0] 2 0
        { dirtyRegs 4 with maskAll := cmu418_init_ones 4 4 } = .ok e ∧
      (∀ l, e.maskAll l = true → ¬ e.y l > 0) ∧
      ∀ fuel, clampedExpVectorWhile exactOps fuel e = .error .outOfFuel := by
  obtain ⟨e, h, hA, hy, hin⟩ := first_entry exactOps [3, 3] [0, 0] 2 (dirtyRegs 4)
    (by decide) (by decide) (by decide)
  refine ⟨e, h, fun l hl => ?_, fun fuel => ?_⟩
  · rw [hA l] at hl
    have hm := List.getElem?_mem (hy l (of_decide_eq_true hl))
    simp only [List.mem_cons, List.mem_singleton, List.not_mem_nil, or_false, or_self] at hm
    rw [hm]
    decide
  · apply while_stuck
    exact ⟨3, by rw [hA 3]; decide, by rw [hin 3 (by decide)]; rfl⟩

/-- C19 (defect): `VECTOR_WIDTH = 4`, `N = 2`, index `0` with value `2` and
exponent `1`, the other index with exponent `-5`.  `clampedExpSerial` stores
`2` at index `0`, but `clampedExpVector`, entered with the bits of the
uninitialised `maskGreaterThan0` set, never leaves its `while` loop and stores
nothing. -/
theorem lane_output_missing_example :
    (∀ fuel : Nat,
      clampedExpVector exactOps fuel (dirtyRegs 4) [2, 9] [1, -5] [0, 0] 2
        = .error .outOfFuel) ∧
    clampedExpSerial exactOps [2, 9] [1, -5] [0, 0] 2 = .ok [2, 1] := by
  refine ⟨fun fuel => clampedExpVector_stuck exactOps (dirtyRegs 4) _ _ _ 2 (by decide)
    (by decide) (by decide) ⟨3, by decide, rfl⟩ fuel, ?_⟩
  have h1 : clampedExpSerialElem exactOps 9 (-5) = 1 := by
    unfold clampedExpSerialElem
    rw [clampedExpSerialWhile_nonpos exactOps (by decide)]
    simp only [exactOps]
    norm_num
  simp [clampedExpSerial, List.range, List.range.loop, readAt, writeAt, bind, Except.bind,
    clampedExpSerialElem_exact, h1]
  norm_num
  rfl

/-- Lane independence where the kernel returns: with the lanes from `N` on of
`maskGreaterThan0` clear on entry and enough fuel, `clampedExpVector` returns,
and every index below `N` with a non-negative exponent holds what
`clampedExpSerial` stores for that value and exponent alone, whatever the
other elements are. -/
theorem clampedExpVector_lane {W : Nat} {F : Type} (ops : FloatOps F) (fuel : Nat)
    (r0 : ExpRegs W F) (values : List F) (exponents : List Int) (output : List F) (N : Nat)
    (hW : 0 < W)
    (hv : N ≤ values.length) (he : N ≤ exponents.length) (ho : N ≤ output.length)
    (hN : N ≤ fuel)
    (hfuel : ∀ (j : Nat) (e : Int), exponents[j]? = some e → e ≤ (fuel : Int))
    (hclean : ∀ l : Fin W, N ≤ l.val → r0.maskGreaterThan0 l = false) :
    ∃ out', clampedExpVector ops fuel r0 values exponents output N = .ok out' ∧
      ∀ (j : Nat) (v : F) (e : Int), j < N → values[j]? = some v → exponents[j]? = some e →
        0 ≤ e → out'[j]? = some (clampedExpSerialElem ops v e) := by
  obtain ⟨out', h⟩ := clampedExpVector_terminates ops fuel r0 values exponents output N hW
    hv he ho hN hfuel hclean
  exact ⟨out', h, (clampedExpVector_sound ops fuel r0 values exponents output out' N h).2.2⟩

/-! ## absVector on full groups -/

/-- One full group of `absVector`: when the `VECTOR_WIDTH` elements from `i` on
lie inside both buffers, the group returns, and it stores `0 - x` for a negative
element `x` and `x` otherwise at the indices `i .. i + VECTOR_WIDTH - 1` and
nothing elsewhere. -/
theorem absVectorBody_spec {W : Nat} {F : Type} (ops : FloatOps F) (values : List F) (i : Nat)
    (s : AbsState W F) (hv : i + W ≤ values.length) (ho : i + W ≤ s.output.length) :
    ∃ s', absVectorBody ops values i s = .ok s' ∧
      s'.output.length = s.output.length ∧
      (∀ j, (j < i ∨ i + W ≤ j) → s'.output[j]? = s.output[j]?) ∧
      ∀ (j : Nat) (x : F), i ≤ j → j < i + W → values[j]? = some x →
        s'.output[j]? = some (if ops.lt x ops.zero then ops.sub ops.zero x else x) := by
  have hb : ∀ (m : cmu418_mask W) (len : Nat), i + W ≤ len →
      ∀ l : Fin W, m l = true → i + l.val < len := by
    intro m len hlen l _
    have := l.isLt
    omega
  simp only [absVectorBody]
  rw [vload_ok _ _ _ _ (hb _ _ hv)]
  simp only [bind_ok]
  rw [vload_ok _ _ _ _ (hb _ _ hv)]
  simp only [bind_ok]
  obtain ⟨out, hout⟩ := vstore_ok s.output i
    (fun l => if cmu418_mask_not (cmu418_vlt_float ops (cmu418_init_ones W 0)
        (fun l => if cmu418_init_ones W W l then values.getD (i + l.val) (s.x l) else s.x l)
        (cmu418_vset W ops.zero) (cmu418_init_ones W W)) l
      then values.getD (i + l.val)
        (cmu418_vsub_float ops s.result (cmu418_vset W ops.zero)
          (fun l => if cmu418_init_ones W W l then values.getD (i + l.val) (s.x l) else s.x l)
          (cmu418_vlt_float ops (cmu418_init_ones W 0)
            (fun l => if cmu418_init_ones W W l then values.getD (i + l.val) (s.x l)
              else s.x l)
            (cmu418_vset W ops.zero) (cmu418_init_ones W W)) l)
      else cmu418_vsub_float ops s.result (cmu418_vset W ops.zero)
          (fun l => if cmu418_init_ones W W l then values.getD (i + l.val) (s.x l) else s.x l)
          (cmu418_vlt_float ops (cmu418_init_ones W 0)
            (fun l => if cmu418_init_ones W W l then values.getD (i + l.val) (s.x l)
              else s.x l)
            (cmu418_vset W ops.zero) (cmu418_init_ones W W)) l)
    (cmu418_init_ones W W) (hb _ _ ho)
  rw [hout]
  obtain ⟨hlen, hset, hframe⟩ := vstore_inv hout
  refine ⟨_, rfl, hlen, fun j hj => ?_, fun j x hij hjW hx => ?_⟩
  · apply hframe
    intro l _
    have := l.isLt
    omega
  · have hlane : j - i < W := by omega
    have hjl : i + (⟨j - i, hlane⟩ : Fin W).val = j := by simp; omega
    have hs := hset ⟨j - i, hlane⟩ (by simp [cmu418_init_ones]; omega)
    rw [hjl] at hs
    rw [hs]
    have hones : cmu418_init_ones W W ⟨j - i, hlane⟩ = true := by
      simp [cmu418_init_ones]; omega
    have hget : values.getD (i + (j - i)) (s.x ⟨j - i, hlane⟩) = x := by
      have : i + (j - i) = j := by omega
      rw [this]
      simp [List.getD, hx]
    simp only [cmu418_mask_not, cmu418_vlt_float, cmu418_vcmp, cmu418_vsub_float, cmu418_vop,
      cmu418_vset, hones, if_true, hget]
    cases hlt : ops.lt x ops.zero <;> simp [List.getD, hx, show i + (j - i) = j by omega]

theorem absVectorFor_spec {W : Nat} {F : Type} (ops : FloatOps F) (values : List F)
    (N : Nat) (hv : N ≤ values.length) (hN : W ∣ N) (k : Nat) :
    ∀ (i : Nat) (s : AbsState W F), W ∣ i → N ≤ s.output.length → N ≤ i + k * W →
      ∃ s', absVectorFor ops values N k i s = .ok s' ∧
        s'.output.length = s.output.length ∧
        (∀ j, (j < i ∨ N ≤ j) → s'.output[j]? = s.output[j]?) ∧
        ∀ (j : Nat) (x : F), i ≤ j → j < N → values[j]? = some x →
          s'.output[j]? = some (if ops.lt x ops.zero then ops.sub ops.zero x else x) := by
  induction k with
  | zero =>
    intro i s _ _ hk
    unfold absVectorFor
    rw [if_neg (by omega)]
    exact ⟨s, rfl, rfl, fun j _ => rfl, fun j x h1 h2 => by omega⟩
  | succ k ih =>
    intro i s hdvd ho hk
    unfold absVectorFor
    split
    · next hi =>
      have hfull : i + W ≤ N := by
        have h1 : W ∣ N - i := Nat.dvd_sub' hN hdvd
        have h2 := Nat.le_of_dvd (by omega) h1
        omega
      obtain ⟨s1, hb, b1, b2, b3⟩ := absVectorBody_spec ops values i s (by omega) (by omega)
      rw [hb]
      simp only [bind_ok]
      obtain ⟨s', hr, r1, r2, r3⟩ := ih (i + W) s1 (Dvd.dvd.add hdvd (dvd_refl W))
        (by rw [b1]; exact ho) (by rw [Nat.succ_mul] at hk; omega)
      refine ⟨s', hr, by rw [r1, b1], fun j hj => ?_, fun j x h1 h2 hx => ?_⟩
      · rw [r2 j (by omega), b2 j (by omega)]
      · by_cases hjW : j < i + W
        · rw [r2 j (Or.inl hjW)]
          exact b3 j x h1 hjW hx
        · exact r3 j x (by omega) h2 hx
    · next hi =>
      exact ⟨s, rfl, rfl, fun j _ => rfl, fun j x h1 h2 => by omega⟩

/-- On a length that is a multiple of `VECTOR_WIDTH`, `absVector` returns; the
buffer keeps its length and its entries from `N` on, and every index below `N`
holds `0 - x` for a negative element `x` and `x` otherwise. -/
theorem absVector_spec {W : Nat} {F : Type} (ops : FloatOps F) (fuel : Nat)
    (x0 result0 : cmu418_vec W F) (values output : List F) (N : Nat)
    (hW : 0 < W) (hN : W ∣ N) (hv : N ≤ values.length) (ho : N ≤ output.length)
    (hfuel : N ≤ fuel) :
    ∃ out', absVector ops fuel x0 result0 values output N = .ok out' ∧
      out'.length = output.length ∧
      (∀ j, N ≤ j → out'[j]? = output[j]?) ∧
      ∀ (j : Nat) (x : F), j < N → values[j]? = some x →
        out'[j]? = some (if ops.lt x ops.zero then ops.sub ops.zero x else x) := by
  obtain ⟨s', h, h1, h2, h3⟩ := absVectorFor_spec ops values N hv hN fuel 0
    { x := x0, result := result0, output := output } (dvd_zero W) ho
    (by
      have : fuel * 1 ≤ fuel * W := Nat.mul_le_mul_left fuel hW
      omega)
  refine ⟨s'.output, ?_, h1, fun j hj => h2 j (Or.inr hj), fun j x hj hx =>
    h3 j x (Nat.zero_le j) hj hx⟩
  unfold absVector
  rw [h]
  rfl

/-- C17: with `VECTOR_WIDTH > 0`, a `values` buffer of exactly `N` elements, an
output buffer of at least `N` elements and fuel at least `N`: when `N` is a
multiple of `VECTOR_WIDTH`, `absVector` returns without any access out of
bounds, returns exactly what `absSerial` returns, leaves the entries from `N`
on as they were, and in exact arithmetic stores `|V[i]|` at every `i < N`;
when `N` is not a multiple of `VECTOR_WIDTH`, it accesses memory out of
bounds. -/
theorem absVector_multiple_of_width {W : Nat} (fuel : Nat) (x0 result0 : cmu418_vec W ℚ)
    (values output : List ℚ) (N : Nat)
    (hW : 0 < W) (hv : values.length = N) (ho : N ≤ output.length) (hfuel : N ≤ fuel) :
    (W ∣ N →
      absVector exactOps fuel x0 result0 values output N = absSerial exactOps values output N ∧
      ∃ out', absVector exactOps fuel x0 result0 values output N = .ok out' ∧
        out'.length = output.length ∧
        (∀ j, N ≤ j → out'[j]? = output[j]?) ∧
        ∀ (i : Nat) (x : ℚ), i < N → values[i]? = some x → out'[i]? = some |x|) ∧
    (¬ W ∣ N →
      absVector exactOps fuel x0 result0 values output N = .error .outOfBounds) := by
  constructor
  · intro hN
    obtain ⟨out1, h1, l1, f1, e1⟩ := absVector_spec exactOps fuel x0 result0 values output N
      hW hN (by omega) ho hfuel
    obtain ⟨out2, h2, l2, e2⟩ := absSerial_spec exactOps values output N (by omega) ho
    have habs : ∀ (i : Nat) (x : ℚ), i < N → values[i]? = some x → out1[i]? = some |x| := by
      intro i x hi hx
      rw [e1 i x hi hx]
      congr 1
      simp only [exactOps, decide_eq_true_eq, zero_sub]
      split
      · next h => exact (abs_of_neg h).symm
      · next h => exact (abs_of_nonneg (not_lt.mp h)).symm
    refine ⟨?_, out1, h1, l1, f1, habs⟩
    rw [h1, h2]
    congr 1
    apply List.ext_getElem?
    intro j
    by_cases hj : j < N
    · have hjv : j < values.length := by omega
      have hx := List.getElem?_eq_getElem hjv
      rw [habs j _ hj hx, e2 j, if_pos hj, hx, Option.map_some', absSerial_elem_exact]
    · rw [f1 j (by omega), e2 j, if_neg hj]
  · intro hN
    have hmod : N % W ≠ 0 := fun h => hN (Nat.dvd_of_mod_eq_zero h)
    have hN0 : 0 < N := by
      rcases Nat.eq_zero_or_pos N with h | h
      · rw [h] at hmod; simp at hmod
      · exact h
    have hW2 : 2 ≤ W := by
      rcases Nat.lt_or_ge W 2 with h | h
      · have h1 : W = 1 := by omega
        rw [h1] at hmod
        exact absurd (Nat.mod_one N) hmod
      · exact h
    have : fuel * 2 ≤ fuel * W := Nat.mul_le_mul_left fuel hW2
    exact absVector_overrun exactOps fuel x0 result0 values output N hv hmod (by omega)

/-- Witness for C17: `VECTOR_WIDTH = 4`, `N = 8`. -/
theorem absVector_multiple_of_width_witness :
    absVector exactOps 8 (fun _ : Fin 4 => (0 : ℚ)) (fun _ => 0)
        [1, -2, 3, -4, 5, -6, 7, -8] [0, 0, 0, 0, 0, 0, 0, 0] 8
      = absSerial exactOps [1, -2, 3, -4, 5, -6, 7, -8] [0, 0, 0, 0, 0, 0, 0, 0] 8 :=
  ((absVector_multiple_of_width 8 (fun _ : Fin 4 => (0 : ℚ)) (fun _ => 0)
    [1, -2, 3, -4, 5, -6, 7, -8] [0, 0, 0, 0, 0, 0, 0, 0] 8 (by decide) rfl (by decide)
    (by decide)).1 (by decide)).1

/-! ## The kernel and its variant, group by group -/

/-- The group of the variant kernel is: enter (lines 110-118), run the variant
`while` loop, clamp and store. -/
theorem groupIterMask_entry {W : Nat} {F : Type} (ops : FloatOps F) (fuel : Nat)
    (values : List F) (exponents : List Int) (N i : Nat) (s : ExpRegs W F × List F) :
    clampedExpVectorGroupIterMask ops fuel values exponents N i s =
      (clampedExpVectorEntry ops values exponents N i s.1 >>= fun e =>
        clampedExpVectorWhileIterMask ops fuel e >>= fun r =>
          cmu418_vstore s.2 i
            (cmu418_vset_masked r.result ops.limit
              (cmu418_vgt_float ops r.maskGreaterThanUpperLimit r.result
                (cmu418_vset W ops.limit) r.maskAll)) r.maskAll >>= fun output =>
            pure ({ r with
                    result := cmu418_vset_masked r.result ops.limit
                      (cmu418_vgt_float ops r.maskGreaterThanUpperLimit r.result
                        (cmu418_vset W ops.limit) r.maskAll)
                    maskGreaterThanUpperLimit :=
                      cmu418_vgt_float ops r.maskGreaterThanUpperLimit r.result
                        (cmu418_vset W ops.limit) r.maskAll }, output)) := by
  simp only [clampedExpVectorGroupIterMask, clampedExpVectorEntry, bind_assoc, pure_bind]

theorem vload_oob {W : Nat} {α : Type} (dest : cmu418_vec W α) (src : List α) (off : Nat)
    (mask : cmu418_mask W) (h : ¬ ∀ l : Fin W, mask l = true → off + l.val < src.length) :
    cmu418_vload dest src off mask = .error .outOfBounds := by
  unfold cmu418_vload
  rw [if_neg h]

theorem vstore_oob {W : Nat} {α : Type} (dest : List α) (off : Nat) (src : cmu418_vec W α)
    (mask : cmu418_mask W) (h : ¬ ∀ l : Fin W, mask l = true → off + l.val < dest.length) :
    cmu418_vstore dest off src mask = .error .outOfBounds := by
  unfold cmu418_vstore
  rw [if_neg h]

/-- Whether the entry of a group succeeds depends on the registers only through
`maskAll`: two register files with the same `maskAll` both enter the group or
both fault. -/
theorem entry_same {W : Nat} {F : Type} (ops : FloatOps F) (values : List F)
    (exponents : List Int) (N i : Nat) (r t : ExpRegs W F) (hA : t.maskAll = r.maskAll) :
    (clampedExpVectorEntry ops values exponents N i r = .error .outOfBounds ∧
      clampedExpVectorEntry ops values exponents N i t = .error .outOfBounds) ∨
    ∃ e a, clampedExpVectorEntry ops values exponents N i r = .ok e ∧
      clampedExpVectorEntry ops values exponents N i t = .ok a := by
  simp only [clampedExpVectorEntry, hA]
  by_cases hv : ∀ l : Fin W,
      (if i + W > N then cmu418_init_ones W (N % W) else r.maskAll) l = true →
      i + l.val < values.length
  · by_cases he : ∀ l : Fin W,
        (if i + W > N then cmu418_init_ones W (N % W) else r.maskAll) l = true →
        i + l.val < exponents.length
    · right
      rw [vload_ok _ _ _ _ hv, vload_ok _ _ _ _ hv, vload_ok _ _ _ _ he, vload_ok _ _ _ _ he]
      exact ⟨_, _, rfl, rfl⟩
    · left
      rw [vload_ok _ _ _ _ hv, vload_ok _ _ _ _ hv, vload_oob _ _ _ _ he, vload_oob _ _ _ _ he]
      exact ⟨rfl, rfl⟩
  · left
    rw [vload_oob _ _ _ _ hv, vload_oob _ _ _ _ hv]
    exact ⟨rfl, rfl⟩

/-- When the variant loop exits, `maskGreaterThan0` is clear in every lane. -/
theorem whileIterMask_exit {W : Nat} {F : Type} (ops : FloatOps F) (fuel : Nat) :
    ∀ r r' : ExpRegs W F, clampedExpVectorWhileIterMask ops fuel r = .ok r' →
      ∀ l, r'.maskGreaterThan0 l = false := by
  induction fuel with
  | zero =>
    intro r r' h
    unfold clampedExpVectorWhileIterMask at h
    split at h
    · exact absurd h (by simp)
    · next hc =>
      have := Except.ok.inj h
      subst this
      exact (cntbits_not_pos_iff _).mp hc
  | succ n ih =>
    intro r r' h
    unfold clampedExpVectorWhileIterMask at h
    split at h
    · exact ih _ _ h
    · next hc =>
      have := Except.ok.inj h
      subst this
      exact (cntbits_not_pos_iff _).mp hc

theorem iterate_neg {W : Nat} {F : Type} (ops : FloatOps F) (k : Nat)
    (r : ExpRegs W F) (l : Fin W) (hl : r.maskAll l = true) (hy : r.y l < 0) :
    ((clampedExpVectorBody ops)^[k] r).y l < 0 := by
  induction k generalizing r with
  | zero => exact hy
  | succ k ih =>
    rw [Function.iterate_succ_apply]
    apply ih _ (by rw [body_maskAll]; exact hl)
    rw [(body_active ops r l hl).1, shiftRight_one]
    omega

/-- One group of the kernel and of its variant, started from states that agree
on `maskAll`, on `maskGreaterThan0`, on the length of the output buffer and on
its entries at the indices whose exponent is non-negative: both fail in the
same way, or both return, in states that agree in the same way. -/
theorem group_iterMask_sim {W : Nat} {F : Type} (ops : FloatOps F) (fuel : Nat)
    (values : List F) (exponents : List Int) (N i : Nat) (s t : ExpRegs W F × List F)
    (hA : t.1.maskAll = s.1.maskAll) (hG : t.1.maskGreaterThan0 = s.1.maskGreaterThan0)
    (hlen : t.2.length = s.2.length)
    (hout : ∀ j : Nat, (∀ e : Int, exponents[j]? = some e → 0 ≤ e) → t.2[j]? = s.2[j]?) :
    (∃ x, clampedExpVectorGroup ops fuel values exponents N i s = .error x ∧
      clampedExpVectorGroupIterMask ops fuel values exponents N i t = .error x) ∨
    ∃ s' t', clampedExpVectorGroup ops fuel values exponents N i s = .ok s' ∧
      clampedExpVectorGroupIterMask ops fuel values exponents N i t = .ok t' ∧
      t'.1.maskAll = s'.1.maskAll ∧ t'.1.maskGreaterThan0 = s'.1.maskGreaterThan0 ∧
      t'.2.length = s'.2.length ∧
      ∀ j : Nat, (∀ e : Int, exponents[j]? = some e → 0 ≤ e) → t'.2[j]? = s'.2[j]? := by
  rw [group_entry, groupIterMask_entry]
  rcases entry_same ops values exponents N i s.1 t.1 hA with ⟨h1, h2⟩ | ⟨e, a, h1, h2⟩
  · left
    rw [h1, h2]
    exact ⟨.outOfBounds, rfl, rfl⟩
  · rw [h1, h2]
    simp only [bind_ok]
    obtain ⟨eA, -, eact, ein⟩ := entry_spec ops values exponents N i s.1 e h1
    obtain ⟨aA, ares, aact, ain⟩ := entry_spec ops values exponents N i t.1 a h2
    have hAe : a.maskAll = e.maskAll := by rw [aA, eA, hA]
    have hlane : ∀ l, e.maskAll l = true → a.y l = e.y l ∧ a.xpower l = e.xpower l := by
      intro l hl
      have hl' : a.maskAll l = true := by rw [hAe]; exact hl
      obtain ⟨ev, ee, -⟩ := eact l hl
      obtain ⟨av, ae, -⟩ := aact l hl'
      rw [ev] at av
      rw [ee] at ae
      exact ⟨(Option.some.inj ae).symm, (Option.some.inj av).symm⟩
    have hGe : a.maskGreaterThan0 = e.maskGreaterThan0 := by
      funext l
      by_cases hl : e.maskAll l = true
      · rw [(aact l (by rw [hAe]; exact hl)).2.2, (eact l hl).2.2, (hlane l hl).1]
      · have hl' : e.maskAll l = false := by simpa using hl
        rw [ain l (by rw [hAe]; exact hl'), ein l hl', hG]
    have hres : ∀ l, a.result l = e.result l := by
      intro l
      rw [ares l, (entry_spec ops values exponents N i s.1 e h1).2.1 l]
    rcases while_iterMask_sim ops fuel e a hAe hGe (fun l hl => (eact l hl).2.2)
      (fun l hl => ⟨(hlane l hl).1, fun _ => hres l, fun _ => (hlane l hl).2⟩)
      with ⟨w1, w2⟩ | ⟨r', a', w1, w2, wA, wres⟩
    · left
      rw [w1, w2]
      exact ⟨.outOfFuel, rfl, rfl⟩
    · rw [w1, w2]
      simp only [bind_ok]
      obtain ⟨k, -, hk, -, hexit⟩ := while_iterate ops fuel e r' w1
      have hrA : r'.maskAll = e.maskAll := by rw [hk, iterate_maskAll]
      have hG' : a'.maskGreaterThan0 = r'.maskGreaterThan0 := by
        funext l
        rw [whileIterMask_exit ops fuel a a' w2 l, (cntbits_not_pos_iff _).mp hexit l]
      by_cases hb : ∀ l : Fin W, r'.maskAll l = true → i + l.val < s.2.length
      · obtain ⟨o1, ho1⟩ := vstore_ok s.2 i
          (cmu418_vset_masked r'.result ops.limit
            (cmu418_vgt_float ops r'.maskGreaterThanUpperLimit r'.result
              (cmu418_vset W ops.limit) r'.maskAll)) r'.maskAll hb
        obtain ⟨o2, ho2⟩ := vstore_ok t.2 i
          (cmu418_vset_masked a'.result ops.limit
            (cmu418_vgt_float ops a'.maskGreaterThanUpperLimit a'.result
              (cmu418_vset W ops.limit) a'.maskAll)) a'.maskAll
          (by rw [wA, hlen]; exact hb)
        right
        rw [ho1, ho2]
        obtain ⟨l1, s1, f1⟩ := vstore_inv ho1
        obtain ⟨l2, s2, f2⟩ := vstore_inv ho2
        refine ⟨_, _, rfl, rfl, wA, hG', by rw [l1, l2, hlen], fun j hj => ?_⟩
        show o2[j]? = o1[j]?
        by_cases hex : ∃ l : Fin W, r'.maskAll l = true ∧ i + l.val = j
        · obtain ⟨l, hl, hjl⟩ := hex
          have hle : e.maskAll l = true := by rw [← hrA]; exact hl
          have h0 : 0 ≤ e.y l := by
            apply hj
            rw [← hjl]
            exact (eact l hle).2.1
          have h0' : 0 ≤ r'.y l := by rw [hk]; exact iterate_nonneg ops k e l hle h0
          have hr := wres l hl h0'
          rw [← hjl, s1 l hl, s2 l (by rw [wA]; exact hl)]
          simp only [cmu418_vset_masked, cmu418_vgt_float, cmu418_vcmp, cmu418_vset, wA, hl, hr,
            if_true]
        · have hno : ∀ l : Fin W, r'.maskAll l = true → i + l.val ≠ j :=
            fun l hl hjl => hex ⟨l, hl, hjl⟩
          rw [f1 j hno, f2 j (by rw [wA]; exact hno)]
          exact hout j hj
      · left
        rw [vstore_oob _ _ _ _ hb, vstore_oob _ _ _ _ (by rw [wA, hlen]; exact hb)]
        exact ⟨.outOfBounds, rfl, rfl⟩

theorem for_iterMask_sim {W : Nat} {F : Type} (ops : FloatOps F) (fuel : Nat)
    (values : List F) (exponents : List Int) (N : Nat) (k : Nat) :
    ∀ (i : Nat) (s t : ExpRegs W F × List F),
      t.1.maskAll = s.1.maskAll → t.1.maskGreaterThan0 = s.1.maskGreaterThan0 →
      t.2.length = s.2.length →
      (∀ j : Nat, (∀ e : Int, exponents[j]? = some e → 0 ≤ e) → t.2[j]? = s.2[j]?) →
      (∃ x, clampedExpVectorFor ops fuel values exponents N k i s = .error x ∧
        clampedExpVectorForIterMask ops fuel values exponents N k i t = .error x) ∨
      ∃ s' t', clampedExpVectorFor ops fuel values exponents N k i s = .ok s' ∧
        clampedExpVectorForIterMask ops fuel values exponents N k i t = .ok t' ∧
        t'.2.length = s'.2.length ∧
        ∀ j : Nat, (∀ e : Int, exponents[j]? = some e → 0 ≤ e) → t'.2[j]? = s'.2[j]? := by
  induction k with
  | zero =>
    intro i s t _ _ hlen hout
    unfold clampedExpVectorFor clampedExpVectorForIterMask
    split
    · left; exact ⟨.outOfFuel, rfl, rfl⟩
    · right; exact ⟨s, t, rfl, rfl, hlen, hout⟩
  | succ k ih =>
    intro i s t hA hG hlen hout
    unfold clampedExpVectorFor clampedExpVectorForIterMask
    split
    · rcases group_iterMask_sim ops fuel values exponents N i s t hA hG hlen hout with
        ⟨x, g1, g2⟩ | ⟨s1, t1, g1, g2, gA, gG, glen, gout⟩
      · left
        rw [g1, g2]
        exact ⟨x, rfl, rfl⟩
      · rw [g1, g2]
        simp only [bind_ok]
        exact ih (i + W) s1 t1 gA gG glen gout
    · right; exact ⟨s, t, rfl, rfl, hlen, hout⟩

/-- The kernel and its variant on the same input: both fail in the same way, or
both return buffers of the same length that agree at every index whose
exponent is non-negative. -/
theorem clampedExpVector_iterMask_sim {W : Nat} {F : Type} (ops : FloatOps F) (fuel : Nat)
    (r0 : ExpRegs W F) (values : List F) (exponents : List Int) (output : List F) (N : Nat) :
    (∃ x, clampedExpVector ops fuel r0 values exponents output N = .error x ∧
      clampedExpVectorIterMask ops fuel r0 values exponents output N = .error x) ∨
    ∃ out outV, clampedExpVector ops fuel r0 values exponents output N = .ok out ∧
      clampedExpVectorIterMask ops fuel r0 values exponents output N = .ok outV ∧
      outV.length = out.length ∧
      ∀ j : Nat, (∀ e : Int, exponents[j]? = some e → 0 ≤ e) → outV[j]? = out[j]? := by
  unfold clampedExpVector clampedExpVectorIterMask
  rcases for_iterMask_sim ops fuel values exponents N fuel 0
    ({ r0 with maskAll := cmu418_init_ones W W }, output)
    ({ r0 with maskAll := cmu418_init_ones W W }, output) rfl rfl rfl (fun _ _ => rfl) with
    ⟨x, h1, h2⟩ | ⟨s', t', h1, h2, hlen, hout⟩
  · left
    rw [h1, h2]
    exact ⟨x, rfl, rfl⟩
  · right
    rw [h1, h2]
    exact ⟨s'.2, t'.2, rfl, rfl, hlen, hout⟩

theorem eq_ok_of_toOption {α : Type} {x : Except Err α} {a : α}
    (h : x.toOption = some a) : x = Except.ok a :=
  match x, h with
  | Except.ok _, h => congrArg Except.ok (Option.some.inj h)
  | Except.error _, h => nomatch h

/-- C16 (counterexample): `VECTOR_WIDTH = 4`, one full group with values
`[1.5, 2, 2, 2]` and exponents `[-1, 3, 0, 1]`, entered with clear registers.
The kernel stores `3.375` at index 0; the kernel whose squaring is masked by
`maskGreaterThan0` instead of `maskAll` stores `2.25` there: the choice of mask
changes an output. -/
theorem iterMask_changes_output_example :
    clampedExpVector exactOps 4 (zeroRegs 4) [3 / 2, 2, 2, 2] [-1, 3, 0, 1] [0, 0, 0, 0] 4
      = .ok [27 / 8, 209 / 50, 1, 2] ∧
    clampedExpVectorIterMask exactOps 4 (zeroRegs 4) [3 / 2, 2, 2, 2] [-1, 3, 0, 1]
      [0, 0, 0, 0] 4 = .ok [9 / 4, 209 / 50, 1, 2] :=
  ⟨eq_ok_of_toOption (by decide!), eq_ok_of_toOption (by decide!)⟩

/-- C16 (amended): in the group of `clampedExpVector` starting at `i`, entered at
line 118 with registers `e`: (1) once the exponent of an active lane is `0` at
some evaluation of the loop condition, the next iteration squares the lane's
`xpower`, and after any number of further iterations the lane's exponent is
still `0` and its `result` is what it was; (2) when the group returns, the
element stored by `_cmu418_vstore_float` for such a lane is that `result`,
clamped to `4.18f`; (3) on every input the kernel whose squaring is masked by
`maskGreaterThan0` instead of `maskAll` fails exactly as `clampedExpVector`
does, or both return output buffers of the same length that agree at every
index whose exponent is non-negative, and that are equal when every exponent
is non-negative. -/
theorem finished_lane_frame {W : Nat} {F : Type} (ops : FloatOps F) (fuel : Nat)
    (values : List F) (exponents : List Int) (N i : Nat) (s : ExpRegs W F × List F)
    (e : ExpRegs W F)
    (h : clampedExpVectorEntry ops values exponents N i s.1 = .ok e) :
    (∀ (j : Nat) (l : Fin W), e.maskAll l = true →
      ((clampedExpVectorBody ops)^[j] e).y l = 0 →
      ((clampedExpVectorBody ops)^[j + 1] e).xpower l =
        ops.mul (((clampedExpVectorBody ops)^[j] e).xpower l)
          (((clampedExpVectorBody ops)^[j] e).xpower l) ∧
      ∀ d, ((clampedExpVectorBody ops)^[j + d] e).y l = 0 ∧
        ((clampedExpVectorBody ops)^[j + d] e).result l
          = ((clampedExpVectorBody ops)^[j] e).result l) ∧
    (∀ s', clampedExpVectorGroup ops fuel values exponents N i s = .ok s' →
      ∀ (j : Nat) (l : Fin W), e.maskAll l = true →
        ((clampedExpVectorBody ops)^[j] e).y l = 0 →
        s'.2[i + l.val]? =
          some (if ops.lt ops.limit (((clampedExpVectorBody ops)^[j] e).result l)
            then ops.limit else ((clampedExpVectorBody ops)^[j] e).result l)) ∧
    ∀ (r0 : ExpRegs W F) (output : List F),
      (∃ x, clampedExpVector ops fuel r0 values exponents output N = .error x ∧
        clampedExpVectorIterMask ops fuel r0 values exponents output N = .error x) ∨
      ∃ out outV, clampedExpVector ops fuel r0 values exponents output N = .ok out ∧
        clampedExpVectorIterMask ops fuel r0 values exponents output N = .ok outV ∧
        outV.length = out.length ∧
        (∀ (j : Nat) (x : Int), exponents[j]? = some x → 0 ≤ x → outV[j]? = out[j]?) ∧
        ((∀ (j : Nat) (x : Int), exponents[j]? = some x → 0 ≤ x) → outV = out) := by
  obtain ⟨-, -, hact, -⟩ := entry_spec ops values exponents N i s.1 e h
  have frame : ∀ (j d : Nat) (l : Fin W), e.maskAll l = true →
      ((clampedExpVectorBody ops)^[j] e).y l = 0 →
      ((clampedExpVectorBody ops)^[j + d] e).y l = 0 ∧
        ((clampedExpVectorBody ops)^[j + d] e).result l
          = ((clampedExpVectorBody ops)^[j] e).result l := by
    intro j d l hl hy
    rw [Nat.add_comm, Function.iterate_add_apply]
    exact iterate_finished_lane ops d _ l (by rw [iterate_maskAll]; exact hl) hy
  refine ⟨fun j l hl hy => ⟨?_, fun d => frame j d l hl hy⟩, fun s' hg j l hl hy => ?_,
    fun r0 output => ?_⟩
  · rw [Function.iterate_succ_apply']
    exact (body_finished_lane ops _ l (by rw [iterate_maskAll]; exact hl) hy).2.2
  · rw [group_entry, h] at hg
    simp only [bind_ok] at hg
    obtain ⟨r', hw, hg⟩ := bind_eq_ok hg
    obtain ⟨out, hst, hg⟩ := bind_eq_ok hg
    have hs' := Except.ok.inj hg
    subst hs'
    obtain ⟨k, -, hk, -, hexit⟩ := while_iterate ops fuel e r' hw
    have hl' : r'.maskAll l = true := by rw [hk, iterate_maskAll]; exact hl
    have hres : r'.result l = ((clampedExpVectorBody ops)^[j] e).result l := by
      rw [hk]
      rcases Nat.le_total j k with hjk | hkj
      · have := (frame j (k - j) l hl hy).2
        rwa [Nat.add_sub_cancel' hjk] at this
      · have hmk := iterate_active ops k e (fun l hl => (hact l hl).2.2) l hl
        rw [← hk, (cntbits_not_pos_iff _).mp hexit l] at hmk
        have hyk : ¬ r'.y l > 0 := by simpa using hmk.symm
        have hyk0 : ((clampedExpVectorBody ops)^[k] e).y l = 0 := by
          by_contra hne
          have hneg : ((clampedExpVectorBody ops)^[k] e).y l < 0 := by
            rw [hk] at hyk
            omega
          have := iterate_neg ops (j - k) _ l (by rw [iterate_maskAll]; exact hl) hneg
          rw [← Function.iterate_add_apply, Nat.sub_add_cancel hkj, hy] at this
          exact absurd this (by decide)
        have := (frame k (j - k) l hl hyk0).2
        rw [Nat.add_sub_cancel' hkj] at this
        exact this.symm
    rw [(vstore_inv hst).2.1 l hl']
    simp only [cmu418_vset_masked, cmu418_vgt_float, cmu418_vcmp, cmu418_vset, hl', hres,
      if_true]
  · rcases clampedExpVector_iterMask_sim ops fuel r0 values exponents output N with
      hx | ⟨out, outV, h1, h2, hlen, hagree⟩
    · left; exact hx
    · right
      refine ⟨out, outV, h1, h2, hlen, fun j x hx h0 => ?_, fun hall => ?_⟩
      · refine hagree j (fun e he => ?_)
        rw [hx] at he
        rw [← Option.some.inj he]
        exact h0
      · apply List.ext_getElem?
        intro j
        exact hagree j (fun e he => hall j e he)

/-- Witness for C16 (amended): `VECTOR_WIDTH = 4`, a full group with exponents
`[0, 1, 2, 3]`: lane 0 has finished on entry and keeps its `result` through
every iteration. -/
theorem finished_lane_frame_witness :
    ∃ e : ExpRegs 4 ℚ,
      clampedExpVectorEntry exactOps [2, 3, 5, 7] [0, 1, 2, 3] 4 0
        { dirtyRegs 4 with maskAll := cmu418_init_ones 4 4 } = .ok e ∧
      ∀ d, ((clampedExpVectorBody exactOps)^[0 + d] e).result 0 = e.result 0 := by
  obtain ⟨e, h, hA, hy, -⟩ := first_entry exactOps [2, 3, 5, 7] [0, 1, 2, 3] 4 (dirtyRegs 4)
    (by decide) (by decide) (by decide)
  have hy0 : e.y 0 = 0 := by
    have := hy 0 (by decide)
    simpa using this.symm
  exact ⟨e, h, fun d =>
    (((finished_lane_frame exactOps 0 [2, 3, 5, 7] [0, 1, 2, 3] 4 0
      ({ dirtyRegs 4 with maskAll := cmu418_init_ones 4 4 }, []) e h).1 0 0
      (by rw [hA 0]; decide) hy0).2 d).2⟩

end Vecintrin
